import Mathlib

/-!
# Verification of the sphinx-mcq normalization pipeline

A shallow embedding of the `sphinx_mcq` extension: the docutils document
tree is modelled as a nested inductive type, the two transform passes
(`MCQChoices`, `MCQFeedback` in `transforms.py`) and the directive
initialization (`MCQDirective.__init__` in `__init__.py`) are translated
into executable Lean functions, and the spec's claims are settled as
theorems about those functions.

Modelling conventions:
* docutils `Text` nodes are `Node.text`; all element classes are
  `Node.elem` with a `Kind` tag.  Element kinds not inspected by any of
  the translated code share the tag `Kind.other`.
* docutils attribute dictionaries are modelled by the `Attrs` structure;
  an `Option` field being `none` models the key being absent.
* Each pass is `Option`-valued: `none` models an uncaught Python
  exception aborting the pass (`StopIteration` from the exhausted ordinal
  iterator, `IndexError` from `mcq_node["ids"][0]`, `KeyError` from
  `choice_node["mcq_is_correct"]`, `ValueError` from tuple unpacking or
  from a second `replace_self` on an already detached field list).
* `node.findall(...)` combined with in-place `replace_self` rewriting is
  modelled as structural recursion over the tree: every matching node
  anywhere in the scanned subtree is rewritten, children before parents.
  The lazy docutils iterator visits the mutated tree, so nodes nested
  inside already rewritten material are rewritten as well, which is what
  the bottom-up recursion produces; since all `mcq` (resp. `mcq_choice`)
  nodes are iterated in document order, the outermost enclosing `mcq`
  (resp. `mcq_choice`) supplies the attributes used for a rewrite, which
  the recursion reproduces by fixing the attribute context at the
  outermost such node.
-/

namespace SphinxMCQ

/-- Element kinds (docutils node classes) distinguished by the translated
code.  `other` stands for every element class the code never inspects. -/
inductive Kind where
  | mcq | mcqBody | mcqChoicesList | mcqChoice | mcqChoiceFeedback
  | document | enumeratedList | listItem | fieldList | field | fieldName | fieldBody
  | paragraph | systemMessage | other
  deriving Repr, DecidableEq

/-- The attribute dictionary of a docutils element, restricted to the keys
the translated code reads or writes.  `none` models an absent key.

`answer`: the `:answer:` option stored on the `mcq` node (modelled from
the spec in part: the `addnodes` module defining the node classes is not
in the sources; per spec section 3 a Question's `answer` attribute is "the
designated correct choice's ordinal letter, or absent", and per sections
7-8 an absent `answer` silently yields zero correct choices, so the
comparison `choice_node["value"] == mcq_node["answer"]` is modelled as
plain `Option` equality, an absent `answer` comparing unequal to every
ordinal rather than raising). -/
structure Attrs where
  ids : List String := []
  classes : List String := []
  names : List String := []
  enumtype : Option String := none
  answer : Option String := none
  mcq_id : Option String := none
  value : Option String := none
  mcq_is_correct : Option Bool := none
  is_correct : Option Bool := none
  deriving Repr, DecidableEq

/-- A docutils document-tree node: either a `Text` leaf carrying a string,
or an element with a kind, attributes and an ordered list of children. -/
inductive Node where
  | text (s : String)
  | elem (kind : Kind) (attrs : Attrs) (children : List Node)
  deriving Repr

mutual
/-- docutils `Node.astext`: a `Text` node returns its data, an element
joins its children's text with the default child text separator. -/
def astext : Node → String
  | .text s => s
  | .elem _ _ cs => joinTexts cs

/-- `"\n\n".join(child.astext() for child in children)`. -/
def joinTexts : List Node → String
  | [] => ""
  | [c] => astext c
  | c :: c' :: cs => astext c ++ "\n\n" ++ joinTexts (c' :: cs)
end

mutual
/-- Does `p` hold somewhere in the subtree rooted at the node (the node
itself included)?  Models a full-depth `findall` scan. -/
def anyNode (p : Node → Bool) : Node → Bool
  | .text s => p (.text s)
  | .elem k a cs => p (.elem k a cs) || anyNodeList p cs

def anyNodeList (p : Node → Bool) : List Node → Bool
  | [] => false
  | c :: cs => anyNode p c || anyNodeList p cs
end

/-- Python `str.strip()`: drop leading and trailing whitespace.  (Python
also strips the rarer control whitespace `\x0b`/`\x0c`, which never occurs
in the compared labels.) -/
def pyStrip (s : String) : String :=
  String.mk ((s.data.dropWhile Char.isWhitespace).reverse.dropWhile Char.isWhitespace).reverse

/-- Python `str.lower()`; ASCII case mapping (Python lowers the full
Unicode range, but the compared labels are ASCII). -/
def pyLower (s : String) : String :=
  String.mk (s.data.map Char.toLower)

/-- The match condition of `MCQChoices.apply`:
`isinstance(n, nodes.enumerated_list) and n.get("enumtype") == "upperalpha"`. -/
def isUpperalphaList : Node → Bool
  | .elem k a _ => k = Kind.enumeratedList && a.enumtype = some "upperalpha"
  | .text _ => false

/-- `transforms.py` `is_feedback_field`: the node is a `nodes.field` whose
first child is a `nodes.field_name` with text (stripped, lowered) equal to
`"feedback"`.  A `field` with no children would make the source unpacking
`field_name, *_ = node.children` raise; docutils fields always carry a
name and a body, and the model returns `false` there. -/
def is_feedback_field : Node → Bool
  | .elem Kind.field _ (c0 :: _) =>
    match c0 with
    | .elem Kind.fieldName _ _ => pyLower (pyStrip (astext c0)) = "feedback"
    | _ => false
  | _ => false

/-- The re-check inside `MCQFeedback.apply` (lines 61-64):
`isinstance(field_name, nodes.field_name) and field_name.astext().strip().lower() == "feedback"`. -/
def is_feedback_name : Node → Bool
  | .elem Kind.fieldName a cs =>
    pyLower (pyStrip (astext (.elem Kind.fieldName a cs))) = "feedback"
  | _ => false

/-- `sphinx.util.docfields._is_single_paragraph` on the children of a
field body: false when empty; when longer than one, every node after the
first must be a `system_message`; and the first child must be a
`paragraph`. -/
def isSingleParagraph (cs : List Node) : Bool :=
  match cs with
  | [] => false
  | c0 :: rest =>
    rest.all (fun c =>
      match c with
      | .elem Kind.systemMessage _ _ => true
      | _ => false)
    && (match c0 with
        | .elem Kind.paragraph _ _ => true
        | _ => false)

namespace MCQChoices

/-- `MCQChoices.choice_indexes = list("ABCDEFGHIJKLMNOPQRSTUVWXYZ")`. -/
def choice_indexes : List String :=
  ["A", "B", "C", "D", "E", "F", "G", "H", "I", "J", "K", "L", "M",
   "N", "O", "P", "Q", "R", "S", "T", "U", "V", "W", "X", "Y", "Z"]

mutual
/-- The rewriting `MCQChoices.apply` performs inside one `mcq` node whose
attributes are `qa`: every `enumerated_list` with `enumtype ==
"upperalpha"` anywhere in the subtree is replaced by a fresh
`mcq_choices_list` (default attributes, per
`mcq_choices_list("", *answer_choices.children)`) wrapping the items
promoted to choices. -/
def transformInMcq (qa : Attrs) : Node → Option Node
  | .text s => some (.text s)
  | .elem k a cs =>
    if k = Kind.enumeratedList ∧ a.enumtype = some "upperalpha" then
      match transformItems qa choice_indexes cs with
      | some cs' => some (.elem Kind.mcqChoicesList {} cs')
      | none => none
    else
      match transformInMcqList qa cs with
      | some cs' => some (.elem k a cs')
      | none => none

def transformInMcqList (qa : Attrs) : List Node → Option (List Node)
  | [] => some []
  | c :: cs =>
    match transformInMcq qa c, transformInMcqList qa cs with
    | some c', some cs' => some (c' :: cs')
    | _, _ => none

/-- The per-item loop of `MCQChoices.apply`: `gen_choice_index =
iter(self.choice_indexes)` supplies one ordinal per item; when the
iterator is exhausted (more than 26 items) `next` raises `StopIteration`,
modelled by `none`. -/
def transformItems (qa : Attrs) : List String → List Node → Option (List Node)
  | _, [] => some []
  | [], _ :: _ => none
  | l :: ls, item :: items =>
    match transformItem qa l item, transformItems qa ls items with
    | some c, some cs => some (c :: cs)
    | _, _ => none

/-- One loop body iteration (`transforms.py` lines 26-35):
`choice_node = mcq_choice("", *item.children)` then
`choice_node.update_all_atts(item)` (the item's attributes replace the
fresh node's defaults), then `mcq_id = mcq_node["ids"][0]` (raises on an
`mcq` with empty `ids`, modelled by `none`), `value` is the drawn ordinal,
and `mcq_is_correct = (value == mcq_node["answer"])`.  A bare `Text` item
has no `children`/`attributes` and would raise, modelled by `none`
(parser-produced enumerated lists contain only `list_item` elements). -/
def transformItem (qa : Attrs) (l : String) : Node → Option Node
  | .text _ => none
  | .elem _ a cs =>
    match transformInMcqList qa cs, qa.ids.head? with
    | some cs', some id0 =>
      some (.elem Kind.mcqChoice
        { a with mcq_id := some id0, value := some l,
                 mcq_is_correct := some (decide (some l = qa.answer)) } cs')
    | _, _ => none
end

mutual
/-- `MCQChoices.apply` (Pass 1, priority 200): for every `mcq` node in the
document, rewrite the upperalpha enumerated lists in its subtree.  The
attributes of the outermost enclosing `mcq` are used (document order: an
outer `mcq` is visited first and its scan already consumes every matching
list in its subtree, nested `mcq` nodes included). -/
def apply : Node → Option Node
  | .text s => some (.text s)
  | .elem k a cs =>
    if k = Kind.mcq then
      match transformInMcqList a cs with
      | some cs' => some (.elem k a cs')
      | none => none
    else
      match applyList cs with
      | some cs' => some (.elem k a cs')
      | none => none

def applyList : List Node → Option (List Node)
  | [] => some []
  | c :: cs =>
    match apply c, applyList cs with
    | some c', some cs' => some (c' :: cs')
    | _, _ => none
end

/-- The build-time warnings `MCQChoices.apply` emits.  The pass body
(`transforms.py` lines 16-38) contains no logger call at all, so the
emitted warning list is empty for every document.  (The only warning in
the code base, "... does not have a list of answer choices", sits in
`MCQDirective.create_choices_list`, which is unreachable: both of its
call sites in `MCQDirective.run` are commented out; it is modelled by
`createChoicesListWarning` below.) -/
def emittedWarnings : Node → List String := fun _ => []

end MCQChoices

/-- The warning text of `MCQDirective.create_choices_list`
(`__init__.py` lines 124-126).  Dead code: `run` never calls
`create_choices_list` (the calls are commented out), so this warning is
never emitted during a build. -/
def createChoicesListWarning (prompt : String) (lineno : Nat) : String :=
  "MCQ '" ++ prompt ++ "' around line " ++ Nat.repr lineno
    ++ " does not have a list of answer choices."

/-! ## Pass 2: `MCQFeedback.apply` (`transforms.py` lines 52-78) -/

namespace MCQFeedback

/-- Content extraction from a feedback field's body (`transforms.py`
lines 65-69): a single-paragraph body is unwrapped to the paragraph's own
children, otherwise the body's children are taken as-is.  A `Text` body
would make the source crash on `.children`, modelled by `none`. -/
def paragraphChildren : Node → Option (List Node)
  | .elem _ _ pcs => some pcs
  | .text _ => none

def extractFieldBody : Node → Option (List Node)
  | .text _ => none
  | .elem _ _ fbcs =>
    if isSingleParagraph fbcs then
      match fbcs with
      | [] => none
      | c0 :: _ => paragraphChildren c0
    else some fbcs

/-- Build the replacement `mcq_choice_feedback` node from a feedback
field (`transforms.py` lines 58-78).  `ic` is `choice_node["mcq_is_correct"]`
of the enclosing choice (`none` models the key being absent, a
`KeyError`).  The field must have exactly the children
`[field_name, field_body]` (`field_name, field_body = feedback_field.children`
raises otherwise).  The replacement is
`mcq_choice_feedback("", nodes.paragraph("", "", *content), is_correct=ic)`. -/
def feedbackContent (fn fb : Node) : Option (List Node) :=
  if is_feedback_name fn then extractFieldBody fb else some []

def buildFeedback (ic : Option Bool) : Node → Option Node
  | .elem _ _ [fn, fb] =>
    (feedbackContent fn fb).bind fun content =>
      ic.bind fun b =>
        some (.elem Kind.mcqChoiceFeedback { is_correct := some b }
          [.elem Kind.paragraph {} content])
  | .text _ => none
  | .elem _ _ [] => none
  | .elem _ _ [_] => none
  | .elem _ _ (_ :: _ :: _ :: _) => none

/-- Rewrite one child position: when inside a choice (`ctx = some ic`), a
`field_list` child containing a feedback field is replaced in place by the
feedback node (`feedback_field.parent.replace_self(...)`).  A `field_list`
holding two or more feedback fields makes the source raise: the second
iteration calls `replace_self` on the already detached `field_list`, whose
parent no longer contains it (`ValueError` from `Element.replace`);
modelled by `none`. -/
def replaceOneChild (ctx : Option (Option Bool)) (c : Node) : Option Node :=
  match ctx, c with
  | some ic, .elem Kind.fieldList la fcs =>
    match fcs.filter is_feedback_field with
    | [] => some (.elem Kind.fieldList la fcs)
    | [f] => buildFeedback ic f
    | _ :: _ :: _ => none
  | _, c => some c

/-- The choice context handed down to a node's subtree: entering the
outermost `mcq_choice` records its `mcq_is_correct` attribute; everywhere
else the enclosing context is kept. -/
def childCtx (ctx : Option (Option Bool)) (k : Kind) (a : Attrs) : Option (Option Bool) :=
  if k = Kind.mcqChoice ∧ ctx = none then some a.mcq_is_correct else ctx

mutual
/-- `MCQFeedback.apply` (Pass 2, priority 201) restricted to a subtree.
`ctx` is `none` outside every `mcq_choice`; on entering the outermost
`mcq_choice` it becomes `some choice.mcq_is_correct` (document order: an
outer choice is visited first and its scan already consumes every feedback
field in its subtree, so the outermost enclosing choice supplies
`mcq_is_correct`).  Children are processed first, then `field_list`
children holding feedback fields are replaced (the lazy `findall` iterator
also reaches fields nested inside content that an enclosing replacement
moved, which the bottom-up recursion reproduces). -/
def applyAux (ctx : Option (Option Bool)) : Node → Option Node
  | .text s => some (.text s)
  | .elem k a cs =>
    match applyAuxList (childCtx ctx k a) cs with
    | some cs' =>
      match replaceChildren (childCtx ctx k a) cs' with
      | some cs'' => some (.elem k a cs'')
      | none => none
    | none => none

def applyAuxList (ctx : Option (Option Bool)) : List Node → Option (List Node)
  | [] => some []
  | c :: cs =>
    match applyAux ctx c, applyAuxList ctx cs with
    | some c', some cs' => some (c' :: cs')
    | _, _ => none

def replaceChildren (ctx : Option (Option Bool)) : List Node → Option (List Node)
  | [] => some []
  | c :: cs =>
    match replaceOneChild ctx c, replaceChildren ctx cs with
    | some c', some cs' => some (c' :: cs')
    | _, _ => none
end

/-- `MCQFeedback.apply` on the whole document (the document root is not an
`mcq_choice`, so the scan starts outside any choice). -/
def apply (doc : Node) : Option Node := applyAux none doc

end MCQFeedback

/-- The full normalization pipeline: Pass 1 (`MCQChoices`, priority 200)
followed by Pass 2 (`MCQFeedback`, priority 201). -/
def pipeline (doc : Node) : Option Node :=
  match MCQChoices.apply doc with
  | some d1 => MCQFeedback.apply d1
  | none => none

/-! ## Normal-form predicates (used to state idempotence) -/

/-- No upperalpha enumerated list anywhere in the subtree. -/
def noUA (n : Node) : Bool := !anyNode isUpperalphaList n

/-- No upperalpha enumerated list anywhere below any of the nodes. -/
def noUAList (cs : List Node) : Bool := !anyNodeList isUpperalphaList cs

mutual
/-- Pass-1 normal form: no `mcq` node's subtree contains an upperalpha
enumerated list, so `MCQChoices.apply` finds nothing to rewrite. -/
def choicesNF : Node → Bool
  | .text _ => true
  | .elem k _ cs =>
    if k = Kind.mcq then noUAList cs else choicesNFList cs

def choicesNFList : List Node → Bool
  | [] => true
  | c :: cs => choicesNF c && choicesNFList cs
end

/-- A `field_list` holding at least one feedback field: the trigger
`MCQFeedback.apply` rewrites (when it sits inside a choice). -/
def isFeedbackTrigger : Node → Bool
  | .elem Kind.fieldList _ fcs => fcs.any is_feedback_field
  | _ => false

mutual
/-- Pass-2 normal form relative to being inside a choice: wherever we are
inside an `mcq_choice` (`inChoice`, or the node itself is one), no child
position holds a feedback-carrying `field_list`, so `MCQFeedback.apply`
finds nothing to rewrite. -/
def feedbackNF (inChoice : Bool) : Node → Bool
  | .text _ => true
  | .elem k _ cs =>
    let inC := inChoice || k = Kind.mcqChoice
    (!inC || !cs.any isFeedbackTrigger) && feedbackNFList inC cs

def feedbackNFList (inChoice : Bool) : List Node → Bool
  | [] => true
  | c :: cs => feedbackNF inChoice c && feedbackNFList inChoice cs
end

/-! ## Observations used in claim statements -/

/-- The `value` attribute (ordinal letter) of a node. -/
def choiceValue : Node → Option String
  | .elem _ a _ => a.value
  | .text _ => none

/-- The `mcq_is_correct` attribute of a node. -/
def choiceIsCorrect : Node → Option Bool
  | .elem _ a _ => a.mcq_is_correct
  | .text _ => none

/-- Is the node an `mcq_choice` element? -/
def isChoiceNode : Node → Bool
  | .elem Kind.mcqChoice _ _ => true
  | _ => false

/-- Is the node an `mcq_choices_list` element? -/
def isChoicesListNode : Node → Bool
  | .elem Kind.mcqChoicesList _ _ => true
  | _ => false

/-- Is the node an `mcq_choice_feedback` element? -/
def isFeedbackNode : Node → Bool
  | .elem Kind.mcqChoiceFeedback _ _ => true
  | _ => false

/-- Number of choices in the list marked correct. -/
def countCorrect (cs : List Node) : Nat :=
  cs.countP (fun c => choiceIsCorrect c = some true)

/-- The ordered children of a node (empty for a `Text` leaf). -/
def nodeChildren : Node → List Node
  | .text _ => []
  | .elem _ _ cs => cs

/-- An element list item whose subtree contains no further upperalpha
enumerated list (the ordinary authored shape; a bare `Text` item would
make the source raise). -/
def isPlainItem : Node → Bool
  | .text _ => false
  | .elem _ _ cs => noUAList cs

/-! ## Concrete documents used as witnesses and counterexamples -/

/-- A plain one-paragraph list item. -/
def plainItem (s : String) : Node :=
  .elem .listItem {} [.elem .paragraph {} [.text s]]

/-- A `:feedback:` field with a one-paragraph body. -/
def egField : Node :=
  .elem .field {} [.elem .fieldName {} [.text "feedback"],
    .elem .fieldBody {} [.elem .paragraph {} [.text "Correct!"]]]

/-- The authored answer list of the spec's section 8 example scenario:
items "3", "4" (with feedback "Correct!"), "5". -/
def egList : Node :=
  .elem .enumeratedList { enumtype := some "upperalpha" }
    [plainItem "3",
     .elem .listItem {} [.elem .paragraph {} [.text "4"], .elem .fieldList {} [egField]],
     plainItem "5"]

/-- The spec's section 8 example Question: prompt "What is 2+2?",
`answer=B`. -/
def egMcq : Node :=
  .elem .mcq { ids := ["mcq-1"], answer := some "B" }
    [.elem .mcqBody {} [.elem .paragraph {} [.text "What is 2+2?"], egList]]

/-- A document holding the example Question. -/
def egDoc : Node := .elem .document {} [egMcq]

/-- A normalized choice node as Pass 1 produces it for the example. -/
def egChoice (l : String) (correct : Bool) (body : List Node) : Node :=
  .elem .mcqChoice
    { mcq_id := some "mcq-1", value := some l, mcq_is_correct := some correct } body

/-- The canonical tree the pipeline produces for `egDoc`. -/
def egExpected : Node :=
  .elem .document {}
    [.elem .mcq { ids := ["mcq-1"], answer := some "B" }
      [.elem .mcqBody {} [.elem .paragraph {} [.text "What is 2+2?"],
        .elem .mcqChoicesList {}
          [egChoice "A" false [.elem .paragraph {} [.text "3"]],
           egChoice "B" true [.elem .paragraph {} [.text "4"],
             .elem .mcqChoiceFeedback { is_correct := some true }
               [.elem .paragraph {} [.text "Correct!"]]],
           egChoice "C" false [.elem .paragraph {} [.text "5"]]]]]]

/-- A normalized choice that was authored without any `feedback:` field:
one paragraph of display content, `mcq_is_correct` set by Pass 1. -/
def noFeedbackChoice : Node :=
  .elem .mcqChoice
    { mcq_id := some "mcq-1", value := some "A", mcq_is_correct := some false }
    [.elem .paragraph {} [.text "an answer"]]

/-- A document whose only choice has no feedback field. -/
def noFeedbackDoc : Node :=
  .elem .document {}
    [.elem .mcq { ids := ["mcq-1"] }
      [.elem .mcqBody {} [.elem .mcqChoicesList {} [noFeedbackChoice]]]]

/-- A Question containing no alphabetic enumerated list at all. -/
def noListMcq : Node :=
  .elem .mcq { ids := ["mcq-1"], answer := some "A" }
    [.elem .mcqBody {} [.elem .paragraph {} [.text "Pick one."]]]

/-- A document holding only the list-less Question. -/
def noListDoc : Node := .elem .document {} [noListMcq]

end SphinxMCQ

namespace SphinxMCQ

/-! ## The directive (`MCQDirective.__init__`, `__init__.py` lines 61-82) -/

/-- The options dictionary as handed to `MCQDirective.__init__` by the
host: each recognized option key is either absent or carries the value the
host's option converter produced.  Flag options (`numbered`,
`show_feedback`) are converted to `None` by the host whatever was typed
after the key, so only their presence matters; it is recorded as a
`Bool`. -/
structure SuppliedOptions where
  answer : Option String := none
  name : Option String := none
  numbered : Bool := false
  show_feedback : Bool := false
  deriving Repr, DecidableEq

/-- The options dictionary after `MCQDirective.__init__` ran: `name` is
always set, flags are booleans, and the `classes` entry exists. -/
structure MCQOptions where
  answer : Option String
  name : String
  numbered : Bool
  show_feedback : Bool
  classes : List String
  deriving Repr, DecidableEq

/-- Python truthiness of `self.options.get("name")`: `None` or `""`. -/
def nameFalsy (n : Option String) : Bool :=
  match n with
  | none => true
  | some s => s = ""

/-- `MCQDirective.__init__` (`__init__.py` lines 61-82).  The build
environment state is the counter `env._mcq_count`, modelled as a `Nat`
where `0` also covers the attribute being absent (both are falsy, and the
code treats them identically: `if not getattr(self.env, "_mcq_count",
None): self.env._mcq_count = 0` followed by `+= 1`).  Returns the parsed
options together with the new counter value.  `classes` starts from
`self.options.setdefault("classes", [])`, which is always fresh (the
option spec has no `classes` key), then `"numbered"` and
`"show-feedback"` are appended in that order when the flags are set. -/
def initDirective (count : Nat) (supplied : SuppliedOptions) : MCQOptions × Nat :=
  let count' := count + 1
  let name :=
    if nameFalsy supplied.name then "mcq-" ++ Nat.repr count'
    else supplied.name.getD ""
  let classes :=
    (if supplied.numbered then ["numbered"] else [])
      ++ (if supplied.show_feedback then ["show-feedback"] else [])
  ({ answer := supplied.answer, name := name, numbered := supplied.numbered,
     show_feedback := supplied.show_feedback, classes := classes }, count')

/-- Run a sequence of `mcq` directive invocations in authoring order,
threading the build-environment counter through. -/
def runDirectives (count : Nat) : List SuppliedOptions → List MCQOptions × Nat
  | [] => ([], count)
  | s :: rest =>
    ((initDirective count s).1 :: (runDirectives (initDirective count s).2 rest).1,
     (runDirectives (initDirective count s).2 rest).2)

/-- Ideal big-endian decimal digit list of a natural number; used only in
proofs to characterize `Nat.repr` (the rendering behind `f"mcq-{count}"`). -/
def decDigits (n : Nat) : List Char :=
  if _h : n < 10 then [Nat.digitChar n]
  else decDigits (n / 10) ++ [Nat.digitChar (n % 10)]
  decreasing_by exact Nat.div_lt_self (by omega) (by omega)

/-- Decode a big-endian decimal digit list. -/
def decValue (l : List Char) : Nat :=
  l.foldl (fun a c => 10 * a + (c.toNat - 48)) 0

end SphinxMCQ

namespace SphinxMCQ

/-! ## Theorems -/

theorem toDigitsCore_eq_decDigits :
    ∀ fuel n ds, n < fuel →
      Nat.toDigitsCore 10 fuel n ds = decDigits n ++ ds := by
  intro fuel
  induction fuel with
  | zero => intro n ds h; omega
  | succ fuel ih =>
    intro n ds h
    rw [Nat.toDigitsCore]
    by_cases h10 : n < 10
    · have hdiv : n / 10 = 0 := Nat.div_eq_of_lt h10
      simp only [hdiv, if_pos rfl]
      rw [decDigits, dif_pos h10, Nat.mod_eq_of_lt h10]
      rfl
    · have hdiv : n / 10 ≠ 0 := by
        intro hc
        have := (Nat.div_eq_zero_iff (by omega : 0 < 10)).mp hc
        omega
      rw [if_neg hdiv]
      rw [ih (n / 10) _ (by
        have h1 : n / 10 < n := Nat.div_lt_self (by omega) (by omega)
        omega)]
      conv_rhs => rw [decDigits]
      rw [dif_neg h10]
      simp

theorem decValue_append (l : List Char) (c : Char) :
    decValue (l ++ [c]) = 10 * decValue l + (c.toNat - 48) := by
  simp [decValue, List.foldl_append]

theorem digitChar_decode {d : Nat} (h : d < 10) :
    (Nat.digitChar d).toNat - 48 = d := by
  interval_cases d <;> rfl

theorem decValue_decDigits (n : Nat) : decValue (decDigits n) = n := by
  induction n using Nat.strong_induction_on with
  | _ n ih =>
    by_cases h : n < 10
    · rw [decDigits, dif_pos h]
      have := digitChar_decode h
      simp [decValue, this]
    · rw [decDigits, dif_neg h]
      rw [decValue_append]
      rw [ih (n / 10) (Nat.div_lt_self (by omega) (by omega))]
      rw [digitChar_decode (Nat.mod_lt _ (by omega))]
      omega

theorem decDigits_injective : Function.Injective decDigits := by
  intro a b h
  have := decValue_decDigits a
  rw [h, decValue_decDigits] at this
  omega

theorem repr_eq_decDigits (n : Nat) :
    Nat.repr n = (decDigits n).asString := by
  rw [Nat.repr, Nat.toDigits]
  rw [toDigitsCore_eq_decDigits (n + 1) n [] (by omega)]
  simp

theorem natRepr_injective : Function.Injective Nat.repr := by
  intro a b h
  rw [repr_eq_decDigits, repr_eq_decDigits] at h
  have h2 : (decDigits a).asString.data = (decDigits b).asString.data := by rw [h]
  simp only [List.asString] at h2
  exact decDigits_injective h2

theorem mcqId_injective (a b : Nat) (h : "mcq-" ++ Nat.repr a = "mcq-" ++ Nat.repr b) :
    a = b := by
  apply natRepr_injective
  have h2 : ("mcq-" ++ Nat.repr a).data = ("mcq-" ++ Nat.repr b).data := by rw [h]
  simp only [String.data_append] at h2
  have h3 := List.append_cancel_left h2
  exact String.ext h3

theorem mcqId_ne_empty (n : Nat) : "mcq-" ++ Nat.repr n ≠ "" := by
  intro h
  have h2 : ("mcq-" ++ Nat.repr n).length = (0 : Nat) := by rw [h]; rfl
  rw [String.length_append] at h2
  have : ("mcq-" : String).length = 4 := rfl
  omega

/-! ### Pass 1: basic lemmas -/

theorem noUA_text (s : String) : noUA (.text s) = true := rfl

theorem noUAList_nil : noUAList [] = true := rfl

theorem noUAList_cons (c : Node) (cs : List Node) :
    noUAList (c :: cs) = (noUA c && noUAList cs) := by
  simp [noUAList, noUA, anyNodeList, Bool.not_or]

theorem noUA_elem (k : Kind) (a : Attrs) (cs : List Node) :
    noUA (.elem k a cs) = (!isUpperalphaList (.elem k a cs) && noUAList cs) := by
  simp [noUA, noUAList, anyNode, Bool.not_or]

theorem isUpperalphaList_eq_false {k : Kind} {a : Attrs} (cs : List Node)
    (hc : ¬(k = Kind.enumeratedList ∧ a.enumtype = some "upperalpha")) :
    isUpperalphaList (.elem k a cs) = false := by
  simp only [isUpperalphaList, Bool.and_eq_false_iff, decide_eq_false_iff_not]
  by_cases h1 : k = Kind.enumeratedList
  · exact Or.inr fun h2 => hc ⟨h1, h2⟩
  · exact Or.inl h1

theorem isUpperalphaList_true_iff {k : Kind} {a : Attrs} (cs : List Node) :
    isUpperalphaList (.elem k a cs) = true ↔
      (k = Kind.enumeratedList ∧ a.enumtype = some "upperalpha") := by
  simp [isUpperalphaList]

mutual
theorem transformInMcq_id (qa : Attrs) :
    ∀ n, noUA n = true → MCQChoices.transformInMcq qa n = some n
  | .text _, _ => rfl
  | .elem k a cs, h => by
      rw [noUA_elem, Bool.and_eq_true, Bool.not_eq_true'] at h
      have hc : ¬(k = Kind.enumeratedList ∧ a.enumtype = some "upperalpha") := by
        intro hand
        rw [(isUpperalphaList_true_iff cs).mpr hand] at h
        exact Bool.noConfusion h.1
      rw [MCQChoices.transformInMcq, if_neg hc,
        transformInMcqList_id qa cs h.2]

theorem transformInMcqList_id (qa : Attrs) :
    ∀ cs, noUAList cs = true → MCQChoices.transformInMcqList qa cs = some cs
  | [], _ => rfl
  | c :: cs, h => by
      rw [noUAList_cons, Bool.and_eq_true] at h
      rw [MCQChoices.transformInMcqList, transformInMcq_id qa c h.1,
        transformInMcqList_id qa cs h.2]
end

mutual
theorem transformInMcq_noUA (qa : Attrs) :
    ∀ n n', MCQChoices.transformInMcq qa n = some n' → noUA n' = true
  | .text s, n', h => by
      rw [MCQChoices.transformInMcq, Option.some.injEq] at h
      rw [← h]
      rfl
  | .elem k a cs, n', h => by
      rw [MCQChoices.transformInMcq] at h
      by_cases hc : k = Kind.enumeratedList ∧ a.enumtype = some "upperalpha"
      · rw [if_pos hc] at h
        cases hti : MCQChoices.transformItems qa MCQChoices.choice_indexes cs with
        | none => rw [hti] at h; cases h
        | some cs' =>
            rw [hti, Option.some.injEq] at h
            rw [← h, noUA_elem, Bool.and_eq_true]
            refine ⟨?_, transformItems_noUA qa _ cs cs' hti⟩
            rw [isUpperalphaList_eq_false cs' (by intro hx; cases hx.1)]
            rfl
      · rw [if_neg hc] at h
        cases hl : MCQChoices.transformInMcqList qa cs with
        | none => rw [hl] at h; cases h
        | some cs' =>
            rw [hl, Option.some.injEq] at h
            rw [← h, noUA_elem, Bool.and_eq_true]
            exact ⟨by rw [isUpperalphaList_eq_false cs' hc]; rfl,
              transformInMcqList_noUA qa cs cs' hl⟩

theorem transformInMcqList_noUA (qa : Attrs) :
    ∀ cs cs', MCQChoices.transformInMcqList qa cs = some cs' → noUAList cs' = true
  | [], cs', h => by
      rw [MCQChoices.transformInMcqList, Option.some.injEq] at h
      rw [← h]
      rfl
  | c :: cs, cs', h => by
      rw [MCQChoices.transformInMcqList] at h
      cases h1 : MCQChoices.transformInMcq qa c with
      | none => rw [h1] at h; cases h
      | some c' =>
        cases h2 : MCQChoices.transformInMcqList qa cs with
        | none => rw [h1, h2] at h; cases h
        | some rest =>
            rw [h1, h2, Option.some.injEq] at h
            rw [← h, noUAList_cons, Bool.and_eq_true]
            exact ⟨transformInMcq_noUA qa c c' h1,
              transformInMcqList_noUA qa cs rest h2⟩

theorem transformItems_noUA (qa : Attrs) :
    ∀ ls items cs', MCQChoices.transformItems qa ls items = some cs' → noUAList cs' = true
  | _, [], cs', h => by
      rw [MCQChoices.transformItems, Option.some.injEq] at h
      rw [← h]
      rfl
  | [], _ :: _, cs', h => by cases h
  | l :: ls, item :: items, cs', h => by
      rw [MCQChoices.transformItems] at h
      cases h1 : MCQChoices.transformItem qa l item with
      | none => rw [h1] at h; cases h
      | some c =>
        cases h2 : MCQChoices.transformItems qa ls items with
        | none => rw [h1, h2] at h; cases h
        | some rest =>
            rw [h1, h2, Option.some.injEq] at h
            rw [← h, noUAList_cons, Bool.and_eq_true]
            exact ⟨transformItem_noUA qa l item c h1,
              transformItems_noUA qa ls items rest h2⟩

theorem transformItem_noUA (qa : Attrs) (l : String) :
    ∀ item c, MCQChoices.transformItem qa l item = some c → noUA c = true
  | .text _, c, h => by cases h
  | .elem k a cs, c, h => by
      rw [MCQChoices.transformItem] at h
      cases h1 : MCQChoices.transformInMcqList qa cs with
      | none => rw [h1] at h; cases h
      | some cs' =>
        cases h2 : qa.ids.head? with
        | none => rw [h1, h2] at h; cases h
        | some id0 =>
            rw [h1, h2, Option.some.injEq] at h
            rw [← h, noUA_elem, Bool.and_eq_true]
            exact ⟨by rw [isUpperalphaList_eq_false cs' (by intro hx; cases hx.1)]; rfl,
              transformInMcqList_noUA qa cs cs' h1⟩
end

/-! ### Pass 1: characterization of the item loop -/

theorem transformItem_spec (qa : Attrs) (l : String) (item c : Node)
    (h : MCQChoices.transformItem qa l item = some c) :
    choiceValue c = some l ∧
    choiceIsCorrect c = some (decide (some l = qa.answer)) ∧
    isChoiceNode c = true := by
  cases item with
  | text s => cases h
  | elem k a cs =>
      rw [MCQChoices.transformItem] at h
      cases h1 : MCQChoices.transformInMcqList qa cs with
      | none => rw [h1] at h; cases h
      | some cs' =>
        cases h2 : qa.ids.head? with
        | none => rw [h1, h2] at h; cases h
        | some id0 =>
            rw [h1, h2, Option.some.injEq] at h
            rw [← h]
            exact ⟨rfl, rfl, rfl⟩

theorem transformItems_spec (qa : Attrs) :
    ∀ (items : List Node) (ls : List String) (cs' : List Node),
      MCQChoices.transformItems qa ls items = some cs' →
      cs'.length = items.length ∧
      items.length ≤ ls.length ∧
      cs'.map choiceValue = (ls.take items.length).map some ∧
      cs'.map choiceIsCorrect
        = (ls.take items.length).map (fun l => some (decide (some l = qa.answer))) := by
  intro items
  induction items with
  | nil =>
      intro ls cs' h
      rw [MCQChoices.transformItems, Option.some.injEq] at h
      simp [← h]
  | cons item items ih =>
      intro ls cs' h
      cases ls with
      | nil => cases h
      | cons l ls =>
          rw [MCQChoices.transformItems] at h
          cases h1 : MCQChoices.transformItem qa l item with
          | none => rw [h1] at h; cases h
          | some c =>
            cases h2 : MCQChoices.transformItems qa ls items with
            | none => rw [h1, h2] at h; cases h
            | some rest =>
                rw [h1, h2, Option.some.injEq] at h
                obtain ⟨hv, hic, _⟩ := transformItem_spec qa l item c h1
                obtain ⟨hlen, hle, hvs, hics⟩ := ih ls rest h2
                rw [← h]
                refine ⟨by simp [hlen], by simp; omega, ?_, ?_⟩
                · simp only [List.length_cons, List.take_succ_cons, List.map_cons]
                  rw [hv, hvs]
                · simp only [List.length_cons, List.take_succ_cons, List.map_cons]
                  rw [hic, hics]

theorem transformItems_total (qa : Attrs) (hids : qa.ids ≠ []) :
    ∀ (items : List Node) (ls : List String),
      items.length ≤ ls.length →
      (∀ item ∈ items, isPlainItem item = true) →
      ∃ cs', MCQChoices.transformItems qa ls items = some cs' := by
  intro items
  induction items with
  | nil => intro ls _ _; exact ⟨[], by rw [MCQChoices.transformItems]⟩
  | cons item items ih =>
      intro ls hlen hplain
      cases ls with
      | nil => simp at hlen
      | cons l ls =>
          have hitem : ∃ c, MCQChoices.transformItem qa l item = some c := by
            cases item with
            | text s => simp [isPlainItem] at hplain
            | elem k a cs =>
                have hcs : noUAList cs = true := by
                  have := hplain (.elem k a cs) (by simp)
                  simpa [isPlainItem] using this
                cases hhd : qa.ids with
                | nil => exact absurd hhd hids
                | cons id0 rest =>
                    cases hti : MCQChoices.transformItem qa l (.elem k a cs) with
                    | some c => exact ⟨c, rfl⟩
                    | none =>
                        rw [MCQChoices.transformItem,
                          transformInMcqList_id qa cs hcs, hhd] at hti
                        exact Option.noConfusion hti
          obtain ⟨c, hc⟩ := hitem
          obtain ⟨rest, hrest⟩ := ih ls (by simpa using hlen)
            (fun i hi => hplain i (by simp [hi]))
          exact ⟨c :: rest, by rw [MCQChoices.transformItems, hc, hrest]⟩

theorem transformItems_overflow (qa : Attrs) :
    ∀ (items : List Node) (ls : List String),
      ls.length < items.length →
      MCQChoices.transformItems qa ls items = none := by
  intro items
  induction items with
  | nil => intro ls h; simp at h
  | cons item items ih =>
      intro ls hlen
      cases ls with
      | nil => rw [MCQChoices.transformItems]
      | cons l ls =>
          rw [MCQChoices.transformItems]
          rw [ih ls (by simpa using hlen)]
          cases MCQChoices.transformItem qa l item <;> rfl

theorem choice_indexes_length : MCQChoices.choice_indexes.length = 26 := rfl

theorem countP_eq_decide_mem :
    ∀ (l : List String), l.Nodup → ∀ L : String,
      l.countP (fun x => decide (x = L)) = if L ∈ l then 1 else 0 := by
  intro l
  induction l with
  | nil => intro _ L; simp
  | cons a l ih =>
      intro hnd L
      rw [List.nodup_cons] at hnd
      rw [List.countP_cons]
      by_cases hx : a = L
      · subst hx
        simp [ih hnd.2, hnd.1]
      · simp [hx, Ne.symm hx, ih hnd.2]

theorem choice_indexes_pairwise :
    MCQChoices.choice_indexes.Pairwise (fun a b => a.data < b.data) := by decide

theorem choice_indexes_nodup : MCQChoices.choice_indexes.Nodup := by decide

/-- C1: for every upperalpha enumerated list of `N` items (`1 ≤ N ≤ 26`)
inside a Question with a registered id, Pass 1 replaces the list by an
`mcq_choices_list` with exactly `N` `mcq_choice` children whose `value`
attributes are the first `N` uppercase letters in strictly increasing
positional order, with no gaps or duplicates; the ordinals depend only on
the item positions (the right-hand side `choice_indexes.take N` mentions
nothing of the items' content), never on author-typed label text. -/
theorem claim_C1 (qa la : Attrs) (items : List Node) (N : Nat)
    (hN : items.length = N) (_h1 : 1 ≤ N) (h26 : N ≤ 26)
    (henum : la.enumtype = some "upperalpha")
    (hids : qa.ids ≠ [])
    (hplain : ∀ item ∈ items, isPlainItem item = true) :
    ∃ cs, MCQChoices.transformInMcq qa (.elem Kind.enumeratedList la items)
        = some (.elem Kind.mcqChoicesList {} cs) ∧
      cs.length = N ∧
      cs.map choiceValue = (MCQChoices.choice_indexes.take N).map some ∧
      (MCQChoices.choice_indexes.take N).Pairwise (fun a b => a.data < b.data) ∧
      (cs.map choiceValue).Nodup := by
  obtain ⟨cs, hcs⟩ := transformItems_total qa hids items MCQChoices.choice_indexes
    (by rw [hN, choice_indexes_length]; exact h26) hplain
  obtain ⟨hlen, _, hvals, _⟩ := transformItems_spec qa items MCQChoices.choice_indexes cs hcs
  have hpair : (MCQChoices.choice_indexes.take N).Pairwise (fun a b => a.data < b.data) :=
    List.Pairwise.sublist (List.take_sublist N _) choice_indexes_pairwise
  refine ⟨cs, ?_, by rw [hlen, hN], by rw [hvals, hN], hpair, ?_⟩
  · rw [MCQChoices.transformInMcq, if_pos ⟨rfl, henum⟩, hcs]
  · rw [hvals, hN]
    exact ((choice_indexes_nodup.sublist (List.take_sublist N _)).map
      (Option.some_injective _))

/-- C2: for every upperalpha list Pass 1 processes, the pass succeeds
whatever the `answer` attribute holds (silently, no error): when `answer`
equals the ordinal of some produced choice exactly one choice carries
`mcq_is_correct = true`; when `answer` is absent or matches no ordinal,
zero choices do. -/
theorem claim_C2 (qa la : Attrs) (items : List Node) (N : Nat)
    (hN : items.length = N) (h26 : N ≤ 26)
    (henum : la.enumtype = some "upperalpha")
    (hids : qa.ids ≠ [])
    (hplain : ∀ item ∈ items, isPlainItem item = true) :
    ∃ cs, MCQChoices.transformInMcq qa (.elem Kind.enumeratedList la items)
        = some (.elem Kind.mcqChoicesList {} cs) ∧
      (∀ L, qa.answer = some L → L ∈ MCQChoices.choice_indexes.take N →
        countCorrect cs = 1) ∧
      (∀ L, qa.answer = some L → L ∉ MCQChoices.choice_indexes.take N →
        countCorrect cs = 0) ∧
      (qa.answer = none → countCorrect cs = 0) := by
  obtain ⟨cs, hcs⟩ := transformItems_total qa hids items MCQChoices.choice_indexes
    (by rw [hN, choice_indexes_length]; exact h26) hplain
  obtain ⟨_, _, _, hics⟩ := transformItems_spec qa items MCQChoices.choice_indexes cs hcs
  have hnd : (MCQChoices.choice_indexes.take N).Nodup :=
    choice_indexes_nodup.sublist (List.take_sublist N _)
  have hcount : countCorrect cs
      = (MCQChoices.choice_indexes.take N).countP
          (fun l => decide (some l = qa.answer)) := by
    rw [hN] at hics
    have h1 : countCorrect cs
        = (cs.map choiceIsCorrect).countP (fun o => decide (o = some true)) := by
      rw [List.countP_map]
      rfl
    rw [h1, hics, List.countP_map]
    apply List.countP_congr
    intro l _
    simp
  refine ⟨cs, ?_, ?_, ?_, ?_⟩
  · rw [MCQChoices.transformInMcq, if_pos ⟨rfl, henum⟩, hcs]
  · intro L hL hmem
    rw [hcount, hL]
    have : ((MCQChoices.choice_indexes.take N).countP
        (fun l => decide (some l = some L)))
        = (MCQChoices.choice_indexes.take N).countP (fun x => decide (x = L)) := by
      apply List.countP_congr
      intro x _
      simp
    rw [this, countP_eq_decide_mem _ hnd L, if_pos hmem]
  · intro L hL hmem
    rw [hcount, hL]
    have : ((MCQChoices.choice_indexes.take N).countP
        (fun l => decide (some l = some L)))
        = (MCQChoices.choice_indexes.take N).countP (fun x => decide (x = L)) := by
      apply List.countP_congr
      intro x _
      simp
    rw [this, countP_eq_decide_mem _ hnd L, if_neg hmem]
  · intro hnone
    rw [hcount, hnone]
    rw [List.countP_eq_zero]
    intro l _
    simp

/-- C10: the ordinal iterator is a fixed 26-letter list restarted per
list: for at most 26 (plain) items the rewrite succeeds, and for any
upperalpha list of 27 or more items `next(gen_choice_index)` raises an
uncaught `StopIteration` (`none`), whatever the items hold, so `N ≤ 26`
is required for Pass 1 to be total. -/
theorem claim_C10 :
    (∀ (qa la : Attrs) (items : List Node),
      la.enumtype = some "upperalpha" → qa.ids ≠ [] →
      (∀ item ∈ items, isPlainItem item = true) → items.length ≤ 26 →
      ∃ out, MCQChoices.transformInMcq qa (.elem Kind.enumeratedList la items)
        = some out) ∧
    (∀ (qa la : Attrs) (items : List Node),
      la.enumtype = some "upperalpha" → 27 ≤ items.length →
      MCQChoices.transformInMcq qa (.elem Kind.enumeratedList la items) = none) := by
  constructor
  · intro qa la items henum hids hplain hlen
    obtain ⟨cs, hcs⟩ := transformItems_total qa hids items MCQChoices.choice_indexes
      (by rw [choice_indexes_length]; exact hlen) hplain
    exact ⟨_, by rw [MCQChoices.transformInMcq, if_pos ⟨rfl, henum⟩, hcs]⟩
  · intro qa la items henum hlen
    rw [MCQChoices.transformInMcq, if_pos ⟨rfl, henum⟩,
      transformItems_overflow qa items MCQChoices.choice_indexes
        (by rw [choice_indexes_length]; omega)]

theorem claim_C1_witness :
    (∀ item ∈ [plainItem "3", plainItem "4"], isPlainItem item = true) ∧
    ∃ cs, MCQChoices.transformInMcq { ids := ["mcq-1"], answer := some "B" }
        (.elem Kind.enumeratedList { enumtype := some "upperalpha" }
          [plainItem "3", plainItem "4"])
        = some (.elem Kind.mcqChoicesList {} cs) ∧
      cs.length = 2 ∧
      cs.map choiceValue = (MCQChoices.choice_indexes.take 2).map some ∧
      (MCQChoices.choice_indexes.take 2).Pairwise (fun a b => a.data < b.data) ∧
      (cs.map choiceValue).Nodup :=
  ⟨by decide,
   claim_C1 { ids := ["mcq-1"], answer := some "B" }
     { enumtype := some "upperalpha" } [plainItem "3", plainItem "4"] 2
     rfl (by omega) (by omega) rfl (by decide) (by decide)⟩

theorem claim_C2_witness :
    (∀ item ∈ [plainItem "3", plainItem "4"], isPlainItem item = true) ∧
    ∃ cs, MCQChoices.transformInMcq { ids := ["mcq-1"], answer := some "B" }
        (.elem Kind.enumeratedList { enumtype := some "upperalpha" }
          [plainItem "3", plainItem "4"])
        = some (.elem Kind.mcqChoicesList {} cs) ∧
      (∀ L, ({ ids := ["mcq-1"], answer := some "B" } : Attrs).answer = some L →
        L ∈ MCQChoices.choice_indexes.take 2 → countCorrect cs = 1) ∧
      (∀ L, ({ ids := ["mcq-1"], answer := some "B" } : Attrs).answer = some L →
        L ∉ MCQChoices.choice_indexes.take 2 → countCorrect cs = 0) ∧
      (({ ids := ["mcq-1"], answer := some "B" } : Attrs).answer = none →
        countCorrect cs = 0) :=
  ⟨by decide,
   claim_C2 { ids := ["mcq-1"], answer := some "B" }
     { enumtype := some "upperalpha" } [plainItem "3", plainItem "4"] 2
     rfl (by omega) rfl (by decide) (by decide)⟩

theorem claim_C10_witness :
    (∃ out, MCQChoices.transformInMcq { ids := ["mcq-1"] }
      (.elem Kind.enumeratedList { enumtype := some "upperalpha" } [plainItem "x"])
        = some out) ∧
    MCQChoices.transformInMcq { ids := ["mcq-1"] }
      (.elem Kind.enumeratedList { enumtype := some "upperalpha" }
        (List.replicate 27 (plainItem "x"))) = none :=
  ⟨claim_C10.1 { ids := ["mcq-1"] } { enumtype := some "upperalpha" } [plainItem "x"]
     rfl (by decide) (by decide) (by decide),
   claim_C10.2 { ids := ["mcq-1"] } { enumtype := some "upperalpha" }
     (List.replicate 27 (plainItem "x")) rfl (by simp)⟩

/-! ### Pass 1 as a whole: normal form and identity -/

theorem choicesNF_text (s : String) : choicesNF (.text s) = true := rfl

theorem choicesNFList_nil : choicesNFList [] = true := rfl

theorem choicesNFList_cons (c : Node) (cs : List Node) :
    choicesNFList (c :: cs) = (choicesNF c && choicesNFList cs) := rfl

theorem choicesNF_elem (k : Kind) (a : Attrs) (cs : List Node) :
    choicesNF (.elem k a cs)
      = if k = Kind.mcq then noUAList cs else choicesNFList cs := rfl

mutual
theorem noUA_imp_choicesNF : ∀ n, noUA n = true → choicesNF n = true
  | .text _, _ => rfl
  | .elem k a cs, h => by
      have hcs : noUAList cs = true := by
        rw [noUA_elem, Bool.and_eq_true] at h
        exact h.2
      rw [choicesNF_elem]
      by_cases hk : k = Kind.mcq
      · rw [if_pos hk]; exact hcs
      · rw [if_neg hk]; exact noUAList_imp_choicesNFList cs hcs

theorem noUAList_imp_choicesNFList : ∀ cs, noUAList cs = true → choicesNFList cs = true
  | [], _ => rfl
  | c :: cs, h => by
      rw [noUAList_cons, Bool.and_eq_true] at h
      rw [choicesNFList_cons, Bool.and_eq_true]
      exact ⟨noUA_imp_choicesNF c h.1, noUAList_imp_choicesNFList cs h.2⟩
end

theorem choicesNF_children (k : Kind) (a : Attrs) (cs : List Node)
    (h : choicesNF (.elem k a cs) = true) : choicesNFList cs = true := by
  rw [choicesNF_elem] at h
  by_cases hk : k = Kind.mcq
  · rw [if_pos hk] at h
    exact noUAList_imp_choicesNFList cs h
  · rw [if_neg hk] at h
    exact h

theorem choicesNFList_mem : ∀ cs, choicesNFList cs = true → ∀ c ∈ cs, choicesNF c = true
  | [], _, c, hc => by cases hc
  | c0 :: cs, h, c, hc => by
      rw [choicesNFList_cons, Bool.and_eq_true] at h
      cases hc with
      | head => exact h.1
      | tail _ hc2 => exact choicesNFList_mem cs h.2 c hc2

theorem noUA_children (k : Kind) (a : Attrs) (cs : List Node)
    (h : noUA (.elem k a cs) = true) : noUAList cs = true := by
  rw [noUA_elem, Bool.and_eq_true] at h
  exact h.2

theorem noUAList_mem : ∀ cs, noUAList cs = true → ∀ c ∈ cs, noUA c = true
  | [], _, c, hc => by cases hc
  | c0 :: cs, h, c, hc => by
      rw [noUAList_cons, Bool.and_eq_true] at h
      cases hc with
      | head => exact h.1
      | tail _ hc2 => exact noUAList_mem cs h.2 c hc2

mutual
theorem apply_id : ∀ n, choicesNF n = true → MCQChoices.apply n = some n
  | .text _, _ => rfl
  | .elem k a cs, h => by
      rw [choicesNF_elem] at h
      rw [MCQChoices.apply]
      by_cases hk : k = Kind.mcq
      · rw [if_pos hk] at h ⊢
        rw [transformInMcqList_id a cs h]
      · rw [if_neg hk] at h ⊢
        rw [applyList_id cs h]

theorem applyList_id : ∀ cs, choicesNFList cs = true → MCQChoices.applyList cs = some cs
  | [], _ => rfl
  | c :: cs, h => by
      rw [choicesNFList_cons, Bool.and_eq_true] at h
      rw [MCQChoices.applyList, apply_id c h.1, applyList_id cs h.2]
end

mutual
theorem apply_NF : ∀ n n', MCQChoices.apply n = some n' → choicesNF n' = true
  | .text s, n', h => by
      rw [MCQChoices.apply, Option.some.injEq] at h
      rw [← h]
      rfl
  | .elem k a cs, n', h => by
      rw [MCQChoices.apply] at h
      by_cases hk : k = Kind.mcq
      · rw [if_pos hk] at h
        cases h1 : MCQChoices.transformInMcqList a cs with
        | none => rw [h1] at h; cases h
        | some cs' =>
            rw [h1, Option.some.injEq] at h
            rw [← h, choicesNF_elem, if_pos hk]
            exact transformInMcqList_noUA a cs cs' h1
      · rw [if_neg hk] at h
        cases h1 : MCQChoices.applyList cs with
        | none => rw [h1] at h; cases h
        | some cs' =>
            rw [h1, Option.some.injEq] at h
            rw [← h, choicesNF_elem, if_neg hk]
            exact applyList_NF cs cs' h1

theorem applyList_NF : ∀ cs cs', MCQChoices.applyList cs = some cs' → choicesNFList cs' = true
  | [], cs', h => by
      rw [MCQChoices.applyList, Option.some.injEq] at h
      rw [← h]
      rfl
  | c :: cs, cs', h => by
      rw [MCQChoices.applyList] at h
      cases h1 : MCQChoices.apply c with
      | none => rw [h1] at h; cases h
      | some c' =>
        cases h2 : MCQChoices.applyList cs with
        | none => rw [h1, h2] at h; cases h
        | some rest =>
            rw [h1, h2, Option.some.injEq] at h
            rw [← h, choicesNFList_cons, Bool.and_eq_true]
            exact ⟨apply_NF c c' h1, applyList_NF cs rest h2⟩
end

/-! ### Pass 2: basic lemmas -/

theorem feedbackNF_text (b : Bool) (s : String) : feedbackNF b (.text s) = true := rfl

theorem feedbackNFList_nil (b : Bool) : feedbackNFList b [] = true := rfl

theorem feedbackNFList_cons (b : Bool) (c : Node) (cs : List Node) :
    feedbackNFList b (c :: cs) = (feedbackNF b c && feedbackNFList b cs) := rfl

theorem feedbackNF_elem (b : Bool) (k : Kind) (a : Attrs) (cs : List Node) :
    feedbackNF b (.elem k a cs)
      = ((!(b || k = Kind.mcqChoice) || !cs.any isFeedbackTrigger)
          && feedbackNFList (b || k = Kind.mcqChoice) cs) := rfl

theorem feedbackNFList_mem :
    ∀ (b : Bool) (cs : List Node), feedbackNFList b cs = true →
      ∀ c ∈ cs, feedbackNF b c = true
  | _, [], _, c, hc => by cases hc
  | b, c0 :: cs, h, c, hc => by
      rw [feedbackNFList_cons, Bool.and_eq_true] at h
      cases hc with
      | head => exact h.1
      | tail _ hc2 => exact feedbackNFList_mem b cs h.2 c hc2

theorem childCtx_isSome (ctx : Option (Option Bool)) (k : Kind) (a : Attrs) :
    (MCQFeedback.childCtx ctx k a).isSome = (ctx.isSome || (k = Kind.mcqChoice)) := by
  cases ctx <;> by_cases hk : k = Kind.mcqChoice <;> simp [MCQFeedback.childCtx, hk]

theorem extractFieldBody_elem (bk : Kind) (ba : Attrs) (fbcs : List Node) :
    MCQFeedback.extractFieldBody (.elem bk ba fbcs)
      = if isSingleParagraph fbcs then
          (match fbcs with
           | [] => none
           | c0 :: _ => MCQFeedback.paragraphChildren c0)
        else some fbcs := rfl

theorem isFeedbackTrigger_true_elim (c : Node) (h : isFeedbackTrigger c = true) :
    ∃ la fcs, c = .elem Kind.fieldList la fcs ∧ fcs.any is_feedback_field = true := by
  cases c with
  | text s => exact Bool.noConfusion h
  | elem k la fcs =>
      cases k <;> first
        | exact Bool.noConfusion h
        | exact ⟨la, fcs, rfl, h⟩

theorem buildFeedback_spec (ic : Option Bool) (f c' : Node)
    (h : MCQFeedback.buildFeedback ic f = some c') :
    ∃ b content, ic = some b ∧
      c' = .elem Kind.mcqChoiceFeedback { is_correct := some b }
        [.elem Kind.paragraph {} content] ∧
      (content = [] ∨
        ∃ fk fa fn fb, f = .elem fk fa [fn, fb] ∧
          (∃ bk ba fbcs, fb = .elem bk ba fbcs ∧
            (content = fbcs ∨
              ∃ pk pa pcs rest, fbcs = .elem pk pa pcs :: rest ∧ content = pcs))) := by
  cases f with
  | text s => cases h
  | elem fk fa fcs =>
      cases fcs with
      | nil => cases h
      | cons fn rest =>
        cases rest with
        | nil => cases h
        | cons fb rest2 =>
          cases rest2 with
          | cons x xs => cases h
          | nil =>
            rw [MCQFeedback.buildFeedback] at h
            cases hcon : MCQFeedback.feedbackContent fn fb with
            | none => rw [hcon, Option.none_bind] at h; exact Option.noConfusion h
            | some content =>
              rw [hcon, Option.some_bind] at h
              cases ic with
              | none => rw [Option.none_bind] at h; exact Option.noConfusion h
              | some b =>
                rw [Option.some_bind, Option.some.injEq] at h
                refine ⟨b, content, rfl, h.symm, ?_⟩
                rw [MCQFeedback.feedbackContent] at hcon
                by_cases hname : is_feedback_name fn = true
                · rw [if_pos hname] at hcon
                  refine Or.inr ⟨fk, fa, fn, fb, rfl, ?_⟩
                  cases fb with
                  | text s2 => exact Option.noConfusion hcon
                  | elem bk ba fbcs =>
                      refine ⟨bk, ba, fbcs, rfl, ?_⟩
                      rw [extractFieldBody_elem] at hcon
                      by_cases hsp : isSingleParagraph fbcs = true
                      · rw [if_pos hsp] at hcon
                        cases fbcs with
                        | nil => exact Bool.noConfusion hsp
                        | cons c0 rest3 =>
                            cases c0 with
                            | text s3 => exact Option.noConfusion hcon
                            | elem pk pa pcs =>
                                injection hcon with hcon
                                exact Or.inr ⟨pk, pa, pcs, rest3, rfl, hcon.symm⟩
                      · rw [if_neg hsp] at hcon
                        injection hcon with hcon
                        exact Or.inl hcon.symm
                · rw [if_neg hname] at hcon
                  rw [Option.some.injEq] at hcon
                  exact Or.inl hcon.symm

theorem replaceOneChild_none (c : Node) : MCQFeedback.replaceOneChild none c = some c := by
  cases c with
  | text s => rfl
  | elem k la fcs => cases k <;> rfl

theorem replaceOneChild_eq_self (ctx : Option (Option Bool)) (c : Node)
    (hc : isFeedbackTrigger c = false) : MCQFeedback.replaceOneChild ctx c = some c := by
  cases ctx with
  | none => exact replaceOneChild_none c
  | some ic =>
      cases c with
      | text s => rfl
      | elem k la fcs =>
          cases k <;> try rfl
          have hfil : fcs.filter is_feedback_field = [] := by
            rw [List.filter_eq_nil_iff]
            intro a ha
            have h2 := List.any_eq_false.mp hc
            exact fun hp => h2 a ha (by rw [hp])
          simp only [MCQFeedback.replaceOneChild, hfil]

theorem replaceOneChild_trigger (ic : Option Bool) (la : Attrs) (fcs : List Node) (f : Node)
    (hf : fcs.filter is_feedback_field = [f]) :
    MCQFeedback.replaceOneChild (some ic) (.elem Kind.fieldList la fcs)
      = MCQFeedback.buildFeedback ic f := by
  simp only [MCQFeedback.replaceOneChild, hf]

theorem replaceOneChild_two (ic : Option Bool) (la : Attrs) (fcs : List Node)
    (f1 f2 : Node) (rest : List Node)
    (hf : fcs.filter is_feedback_field = f1 :: f2 :: rest) :
    MCQFeedback.replaceOneChild (some ic) (.elem Kind.fieldList la fcs) = none := by
  simp only [MCQFeedback.replaceOneChild, hf]

theorem replaceOneChild_pres_noUA (ctx : Option (Option Bool)) (c c' : Node)
    (h : MCQFeedback.replaceOneChild ctx c = some c') (hc : noUA c = true) :
    noUA c' = true := by
  cases hT : isFeedbackTrigger c with
  | false =>
      rw [replaceOneChild_eq_self ctx c hT, Option.some.injEq] at h
      rw [← h]
      exact hc
  | true =>
      obtain ⟨la, fcs, rfl, hany⟩ := isFeedbackTrigger_true_elim c hT
      cases ctx with
      | none =>
          rw [replaceOneChild_none, Option.some.injEq] at h
          rw [← h]
          exact hc
      | some ic =>
          cases hfil : fcs.filter is_feedback_field with
          | nil =>
              obtain ⟨x, hx, hpx⟩ := List.any_eq_true.mp hany
              exact absurd hpx (List.filter_eq_nil_iff.mp hfil x hx)
          | cons f rest =>
            cases rest with
            | cons f2 rest2 =>
                rw [replaceOneChild_two ic la fcs f f2 rest2 hfil] at h
                exact Option.noConfusion h
            | nil =>
                rw [replaceOneChild_trigger ic la fcs f hfil] at h
                obtain ⟨b, content, hic, rfl, hprov⟩ := buildFeedback_spec ic f c' h
                rw [noUA_elem, Bool.and_eq_true]
                refine ⟨by rw [isUpperalphaList_eq_false _ (fun hx => by cases hx.1)]; rfl, ?_⟩
                rw [noUAList_cons, Bool.and_eq_true]
                refine ⟨?_, rfl⟩
                rw [noUA_elem, Bool.and_eq_true]
                refine ⟨by rw [isUpperalphaList_eq_false _ (fun hx => by cases hx.1)]; rfl, ?_⟩
                have hfcs : noUAList fcs = true := noUA_children _ _ _ hc
                have hfmem : f ∈ fcs := by
                  apply List.mem_of_mem_filter (p := is_feedback_field)
                  rw [hfil]
                  exact List.mem_singleton.mpr rfl
                have hf : noUA f = true := noUAList_mem fcs hfcs f hfmem
                cases hprov with
                | inl h0 => rw [h0]; rfl
                | inr hp =>
                    obtain ⟨fk, fa2, fn, fb, rfl, bk, ba, fbcs, rfl, hcc⟩ := hp
                    have hfbcs : noUAList fbcs = true := by
                      have h1 : noUAList [fn, .elem bk ba fbcs] = true :=
                        noUA_children _ _ _ hf
                      have h2 : noUA (.elem bk ba fbcs) = true :=
                        noUAList_mem _ h1 _ (by simp)
                      exact noUA_children _ _ _ h2
                    cases hcc with
                    | inl h0 => rw [h0]; exact hfbcs
                    | inr hq =>
                        obtain ⟨pk, pa, pcs, rest2, hfb, h0⟩ := hq
                        rw [h0]
                        have hp0 : noUA (.elem pk pa pcs) = true :=
                          noUAList_mem _ hfbcs _ (by rw [hfb]; exact List.mem_cons_self _ _)
                        exact noUA_children _ _ _ hp0

theorem replaceOneChild_pres_cNF (ctx : Option (Option Bool)) (c c' : Node)
    (h : MCQFeedback.replaceOneChild ctx c = some c') (hc : choicesNF c = true) :
    choicesNF c' = true := by
  cases hT : isFeedbackTrigger c with
  | false =>
      rw [replaceOneChild_eq_self ctx c hT, Option.some.injEq] at h
      rw [← h]
      exact hc
  | true =>
      obtain ⟨la, fcs, rfl, hany⟩ := isFeedbackTrigger_true_elim c hT
      cases ctx with
      | none =>
          rw [replaceOneChild_none, Option.some.injEq] at h
          rw [← h]
          exact hc
      | some ic =>
          cases hfil : fcs.filter is_feedback_field with
          | nil =>
              obtain ⟨x, hx, hpx⟩ := List.any_eq_true.mp hany
              exact absurd hpx (List.filter_eq_nil_iff.mp hfil x hx)
          | cons f rest =>
            cases rest with
            | cons f2 rest2 =>
                rw [replaceOneChild_two ic la fcs f f2 rest2 hfil] at h
                exact Option.noConfusion h
            | nil =>
                rw [replaceOneChild_trigger ic la fcs f hfil] at h
                obtain ⟨b, content, hic, rfl, hprov⟩ := buildFeedback_spec ic f c' h
                rw [choicesNF_elem, if_neg (fun hx => by cases hx)]
                rw [choicesNFList_cons, Bool.and_eq_true]
                refine ⟨?_, rfl⟩
                rw [choicesNF_elem, if_neg (fun hx => by cases hx)]
                have hfcs : choicesNFList fcs = true := choicesNF_children _ _ _ hc
                have hfmem : f ∈ fcs := by
                  apply List.mem_of_mem_filter (p := is_feedback_field)
                  rw [hfil]
                  exact List.mem_singleton.mpr rfl
                have hf : choicesNF f = true := choicesNFList_mem fcs hfcs f hfmem
                cases hprov with
                | inl h0 => rw [h0]; rfl
                | inr hp =>
                    obtain ⟨fk, fa2, fn, fb, rfl, bk, ba, fbcs, rfl, hcc⟩ := hp
                    have hfbcs : choicesNFList fbcs = true := by
                      have h1 : choicesNFList [fn, .elem bk ba fbcs] = true :=
                        choicesNF_children _ _ _ hf
                      have h2 : choicesNF (.elem bk ba fbcs) = true :=
                        choicesNFList_mem _ h1 _ (by simp)
                      exact choicesNF_children _ _ _ h2
                    cases hcc with
                    | inl h0 => rw [h0]; exact hfbcs
                    | inr hq =>
                        obtain ⟨pk, pa, pcs, rest2, hfb, h0⟩ := hq
                        rw [h0]
                        have hp0 : choicesNF (.elem pk pa pcs) = true :=
                          choicesNFList_mem _ hfbcs _ (by rw [hfb]; exact List.mem_cons_self _ _)
                        exact choicesNF_children _ _ _ hp0

theorem replaceChildren_pres_noUA (ctx : Option (Option Bool)) :
    ∀ cs cs', MCQFeedback.replaceChildren ctx cs = some cs' →
      noUAList cs = true → noUAList cs' = true
  | [], cs', h, _ => by
      rw [MCQFeedback.replaceChildren, Option.some.injEq] at h
      rw [← h]
      rfl
  | c :: cs, cs', h, hc => by
      rw [noUAList_cons, Bool.and_eq_true] at hc
      rw [MCQFeedback.replaceChildren] at h
      cases h1 : MCQFeedback.replaceOneChild ctx c with
      | none => rw [h1] at h; cases h
      | some c' =>
        cases h2 : MCQFeedback.replaceChildren ctx cs with
        | none => rw [h1, h2] at h; cases h
        | some rest =>
            rw [h1, h2, Option.some.injEq] at h
            rw [← h, noUAList_cons, Bool.and_eq_true]
            exact ⟨replaceOneChild_pres_noUA ctx c c' h1 hc.1,
              replaceChildren_pres_noUA ctx cs rest h2 hc.2⟩

theorem replaceChildren_pres_cNF (ctx : Option (Option Bool)) :
    ∀ cs cs', MCQFeedback.replaceChildren ctx cs = some cs' →
      choicesNFList cs = true → choicesNFList cs' = true
  | [], cs', h, _ => by
      rw [MCQFeedback.replaceChildren, Option.some.injEq] at h
      rw [← h]
      rfl
  | c :: cs, cs', h, hc => by
      rw [choicesNFList_cons, Bool.and_eq_true] at hc
      rw [MCQFeedback.replaceChildren] at h
      cases h1 : MCQFeedback.replaceOneChild ctx c with
      | none => rw [h1] at h; cases h
      | some c' =>
        cases h2 : MCQFeedback.replaceChildren ctx cs with
        | none => rw [h1, h2] at h; cases h
        | some rest =>
            rw [h1, h2, Option.some.injEq] at h
            rw [← h, choicesNFList_cons, Bool.and_eq_true]
            exact ⟨replaceOneChild_pres_cNF ctx c c' h1 hc.1,
              replaceChildren_pres_cNF ctx cs rest h2 hc.2⟩

mutual
theorem applyAux_pres_noUA :
    ∀ ctx n n', MCQFeedback.applyAux ctx n = some n' → noUA n = true → noUA n' = true
  | ctx, .text s, n', h, hc => by
      rw [MCQFeedback.applyAux, Option.some.injEq] at h
      rw [← h]
      exact hc
  | ctx, .elem k a cs, n', h, hc => by
      rw [MCQFeedback.applyAux] at h
      cases h1 : MCQFeedback.applyAuxList (MCQFeedback.childCtx ctx k a) cs with
      | none => rw [h1] at h; cases h
      | some cs' =>
        rw [h1] at h
        replace h : (match MCQFeedback.replaceChildren (MCQFeedback.childCtx ctx k a) cs' with
          | some cs'' => some (Node.elem k a cs'')
          | none => none) = some n' := h
        cases h2 : MCQFeedback.replaceChildren (MCQFeedback.childCtx ctx k a) cs' with
        | none => rw [h2] at h; cases h
        | some cs'' =>
            rw [h2, Option.some.injEq] at h
            rw [← h, noUA_elem, Bool.and_eq_true]
            constructor
            · have hiso : isUpperalphaList (.elem k a cs'') = isUpperalphaList (.elem k a cs) := rfl
              rw [hiso]
              rw [noUA_elem, Bool.and_eq_true] at hc
              exact hc.1
            · have hcs : noUAList cs = true := noUA_children k a cs hc
              exact replaceChildren_pres_noUA _ cs' cs'' h2
                (applyAuxList_pres_noUA _ cs cs' h1 hcs)

theorem applyAuxList_pres_noUA :
    ∀ ctx cs cs', MCQFeedback.applyAuxList ctx cs = some cs' →
      noUAList cs = true → noUAList cs' = true
  | ctx, [], cs', h, _ => by
      rw [MCQFeedback.applyAuxList, Option.some.injEq] at h
      rw [← h]
      rfl
  | ctx, c :: cs, cs', h, hc => by
      rw [noUAList_cons, Bool.and_eq_true] at hc
      rw [MCQFeedback.applyAuxList] at h
      cases h1 : MCQFeedback.applyAux ctx c with
      | none => rw [h1] at h; cases h
      | some c' =>
        cases h2 : MCQFeedback.applyAuxList ctx cs with
        | none => rw [h1, h2] at h; cases h
        | some rest =>
            rw [h1, h2, Option.some.injEq] at h
            rw [← h, noUAList_cons, Bool.and_eq_true]
            exact ⟨applyAux_pres_noUA ctx c c' h1 hc.1,
              applyAuxList_pres_noUA ctx cs rest h2 hc.2⟩
end

mutual
theorem applyAux_pres_cNF :
    ∀ ctx n n', MCQFeedback.applyAux ctx n = some n' → choicesNF n = true → choicesNF n' = true
  | ctx, .text s, n', h, hc => by
      rw [MCQFeedback.applyAux, Option.some.injEq] at h
      rw [← h]
      exact hc
  | ctx, .elem k a cs, n', h, hc => by
      rw [MCQFeedback.applyAux] at h
      cases h1 : MCQFeedback.applyAuxList (MCQFeedback.childCtx ctx k a) cs with
      | none => rw [h1] at h; cases h
      | some cs' =>
        rw [h1] at h
        replace h : (match MCQFeedback.replaceChildren (MCQFeedback.childCtx ctx k a) cs' with
          | some cs'' => some (Node.elem k a cs'')
          | none => none) = some n' := h
        cases h2 : MCQFeedback.replaceChildren (MCQFeedback.childCtx ctx k a) cs' with
        | none => rw [h2] at h; cases h
        | some cs'' =>
            rw [h2, Option.some.injEq] at h
            rw [← h, choicesNF_elem]
            rw [choicesNF_elem] at hc
            by_cases hk : k = Kind.mcq
            · rw [if_pos hk] at hc ⊢
              exact replaceChildren_pres_noUA _ cs' cs'' h2
                (applyAuxList_pres_noUA _ cs cs' h1 hc)
            · rw [if_neg hk] at hc ⊢
              exact replaceChildren_pres_cNF _ cs' cs'' h2
                (applyAuxList_pres_cNF _ cs cs' h1 hc)

theorem applyAuxList_pres_cNF :
    ∀ ctx cs cs', MCQFeedback.applyAuxList ctx cs = some cs' →
      choicesNFList cs = true → choicesNFList cs' = true
  | ctx, [], cs', h, _ => by
      rw [MCQFeedback.applyAuxList, Option.some.injEq] at h
      rw [← h]
      rfl
  | ctx, c :: cs, cs', h, hc => by
      rw [choicesNFList_cons, Bool.and_eq_true] at hc
      rw [MCQFeedback.applyAuxList] at h
      cases h1 : MCQFeedback.applyAux ctx c with
      | none => rw [h1] at h; cases h
      | some c' =>
        cases h2 : MCQFeedback.applyAuxList ctx cs with
        | none => rw [h1, h2] at h; cases h
        | some rest =>
            rw [h1, h2, Option.some.injEq] at h
            rw [← h, choicesNFList_cons, Bool.and_eq_true]
            exact ⟨applyAux_pres_cNF ctx c c' h1 hc.1,
              applyAuxList_pres_cNF ctx cs rest h2 hc.2⟩
end

/-! ### Pass 2: identity on normal form, output normal form -/

theorem replaceChildren_id (ctx : Option (Option Bool)) :
    ∀ cs, (ctx = none ∨ ∀ c ∈ cs, isFeedbackTrigger c = false) →
      MCQFeedback.replaceChildren ctx cs = some cs
  | [], _ => by rw [MCQFeedback.replaceChildren]
  | c :: cs, h => by
      have hc : MCQFeedback.replaceOneChild ctx c = some c := by
        cases h with
        | inl h0 => rw [h0]; exact replaceOneChild_none c
        | inr h0 => exact replaceOneChild_eq_self ctx c (h0 c (List.mem_cons_self c cs))
      have hrest : MCQFeedback.replaceChildren ctx cs = some cs :=
        replaceChildren_id ctx cs (by
          cases h with
          | inl h0 => exact Or.inl h0
          | inr h0 => exact Or.inr fun x hx => h0 x (List.mem_cons_of_mem c hx))
      rw [MCQFeedback.replaceChildren, hc, hrest]

mutual
theorem applyAux_id :
    ∀ (ctx : Option (Option Bool)) (n : Node), feedbackNF ctx.isSome n = true →
      MCQFeedback.applyAux ctx n = some n
  | _, .text _, _ => rfl
  | ctx, .elem k a cs, h => by
      rw [feedbackNF_elem, Bool.and_eq_true] at h
      obtain ⟨h1, h2⟩ := h
      have hiso := childCtx_isSome ctx k a
      rw [MCQFeedback.applyAux]
      rw [applyAuxList_id (MCQFeedback.childCtx ctx k a) cs (by rw [hiso]; exact h2)]
      have hre : MCQFeedback.replaceChildren (MCQFeedback.childCtx ctx k a) cs = some cs := by
        apply replaceChildren_id
        rw [Bool.or_eq_true] at h1
        cases h1 with
        | inl h0 =>
            left
            rw [Bool.not_eq_true'] at h0
            cases hcc : MCQFeedback.childCtx ctx k a with
            | none => rfl
            | some v =>
                rw [hcc, h0] at hiso
                exact Bool.noConfusion hiso
        | inr h0 =>
            right
            intro x hx
            rw [Bool.not_eq_true'] at h0
            have := List.any_eq_false.mp h0 x hx
            exact Bool.not_eq_true _ ▸ this
      show (match MCQFeedback.replaceChildren (MCQFeedback.childCtx ctx k a) cs with
        | some cs'' => some (Node.elem k a cs'')
        | none => none) = some (Node.elem k a cs)
      rw [hre]

theorem applyAuxList_id :
    ∀ (ctx : Option (Option Bool)) (cs : List Node), feedbackNFList ctx.isSome cs = true →
      MCQFeedback.applyAuxList ctx cs = some cs
  | _, [], _ => rfl
  | ctx, c :: cs, h => by
      rw [feedbackNFList_cons, Bool.and_eq_true] at h
      rw [MCQFeedback.applyAuxList, applyAux_id ctx c h.1, applyAuxList_id ctx cs h.2]
end

theorem feedbackNF_true_parts (k : Kind) (a : Attrs) (cs : List Node)
    (h : feedbackNF true (.elem k a cs) = true) :
    cs.any isFeedbackTrigger = false ∧ feedbackNFList true cs = true := by
  rw [feedbackNF_elem, Bool.and_eq_true] at h
  obtain ⟨h1, h2⟩ := h
  constructor
  · rw [Bool.true_or, Bool.not_true, Bool.false_or, Bool.not_eq_true'] at h1
    exact h1
  · exact h2

theorem content_NF_of_field (f : Node) (content : List Node)
    (hfNF : feedbackNF true f = true)
    (hprov : content = [] ∨ ∃ fk fa fn fb, f = .elem fk fa [fn, fb] ∧
        (∃ bk ba fbcs, fb = .elem bk ba fbcs ∧
          (content = fbcs ∨ ∃ pk pa pcs rest, fbcs = .elem pk pa pcs :: rest ∧ content = pcs))) :
    content.any isFeedbackTrigger = false ∧ feedbackNFList true content = true := by
  cases hprov with
  | inl h0 => rw [h0]; exact ⟨rfl, rfl⟩
  | inr hp =>
      obtain ⟨fk, fa, fn, fb, rfl, bk, ba, fbcs, rfl, hcc⟩ := hp
      obtain ⟨_, hfl⟩ := feedbackNF_true_parts fk fa _ hfNF
      have hfbNF : feedbackNF true (.elem bk ba fbcs) = true :=
        feedbackNFList_mem true _ hfl _ (by simp)
      obtain ⟨hbt, hbl⟩ := feedbackNF_true_parts bk ba fbcs hfbNF
      cases hcc with
      | inl h0 => rw [h0]; exact ⟨hbt, hbl⟩
      | inr hq =>
          obtain ⟨pk, pa, pcs, rest, hfb, h0⟩ := hq
          have hc0 : feedbackNF true (.elem pk pa pcs) = true :=
            feedbackNFList_mem true _ hbl _ (by rw [hfb]; exact List.mem_cons_self _ _)
          obtain ⟨hpt, hpl⟩ := feedbackNF_true_parts pk pa pcs hc0
          rw [h0]
          exact ⟨hpt, hpl⟩

theorem replaceOneChild_NF (ctx : Option (Option Bool)) (c c' : Node)
    (h : MCQFeedback.replaceOneChild ctx c = some c')
    (hc : feedbackNF ctx.isSome c = true) :
    feedbackNF ctx.isSome c' = true ∧ (ctx.isSome = true → isFeedbackTrigger c' = false) := by
  cases hT : isFeedbackTrigger c with
  | false =>
      rw [replaceOneChild_eq_self ctx c hT, Option.some.injEq] at h
      rw [← h]
      exact ⟨hc, fun _ => hT⟩
  | true =>
      obtain ⟨la, fcs, rfl, hany⟩ := isFeedbackTrigger_true_elim c hT
      cases ctx with
      | none =>
          rw [replaceOneChild_none, Option.some.injEq] at h
          rw [← h]
          exact ⟨hc, fun hx => Bool.noConfusion hx⟩
      | some ic =>
          simp only [Option.isSome_some] at hc ⊢
          cases hfil : fcs.filter is_feedback_field with
          | nil =>
              obtain ⟨x, hx, hpx⟩ := List.any_eq_true.mp hany
              exact absurd hpx (List.filter_eq_nil_iff.mp hfil x hx)
          | cons f rest =>
            cases rest with
            | cons f2 rest2 =>
                rw [replaceOneChild_two ic la fcs f f2 rest2 hfil] at h
                exact Option.noConfusion h
            | nil =>
                rw [replaceOneChild_trigger ic la fcs f hfil] at h
                obtain ⟨b, content, hic, rfl, hprov⟩ := buildFeedback_spec ic f c' h
                obtain ⟨hft, hfl⟩ := feedbackNF_true_parts Kind.fieldList la fcs hc
                have hfmem : f ∈ fcs := by
                  apply List.mem_of_mem_filter (p := is_feedback_field)
                  rw [hfil]
                  exact List.mem_singleton.mpr rfl
                have hfNF : feedbackNF true f = true := feedbackNFList_mem true fcs hfl f hfmem
                obtain ⟨hct, hcl⟩ := content_NF_of_field f content hfNF hprov
                refine ⟨?_, fun _ => rfl⟩
                rw [feedbackNF_elem, Bool.and_eq_true]
                constructor
                · rfl
                · rw [feedbackNFList_cons, Bool.and_eq_true]
                  refine ⟨?_, rfl⟩
                  rw [feedbackNF_elem, Bool.and_eq_true]
                  constructor
                  · rw [hct]
                    rfl
                  · exact hcl

theorem replaceChildren_NF (ctx : Option (Option Bool)) :
    ∀ cs cs', MCQFeedback.replaceChildren ctx cs = some cs' →
      feedbackNFList ctx.isSome cs = true →
      feedbackNFList ctx.isSome cs' = true ∧
        (ctx.isSome = true → cs'.any isFeedbackTrigger = false)
  | [], cs', h, _ => by
      rw [MCQFeedback.replaceChildren, Option.some.injEq] at h
      rw [← h]
      exact ⟨rfl, fun _ => rfl⟩
  | c :: cs, cs', h, hc => by
      rw [feedbackNFList_cons, Bool.and_eq_true] at hc
      rw [MCQFeedback.replaceChildren] at h
      cases h1 : MCQFeedback.replaceOneChild ctx c with
      | none => rw [h1] at h; cases h
      | some c' =>
        cases h2 : MCQFeedback.replaceChildren ctx cs with
        | none => rw [h1, h2] at h; cases h
        | some rest =>
            rw [h1, h2, Option.some.injEq] at h
            obtain ⟨hnf1, ht1⟩ := replaceOneChild_NF ctx c c' h1 hc.1
            obtain ⟨hnfr, htr⟩ := replaceChildren_NF ctx cs rest h2 hc.2
            rw [← h]
            constructor
            · rw [feedbackNFList_cons, Bool.and_eq_true]
              exact ⟨hnf1, hnfr⟩
            · intro hs
              rw [List.any_cons, ht1 hs, htr hs]
              rfl

mutual
theorem applyAux_NF :
    ∀ (ctx : Option (Option Bool)) (n n' : Node), MCQFeedback.applyAux ctx n = some n' →
      feedbackNF ctx.isSome n' = true
  | ctx, .text s, n', h => by
      rw [MCQFeedback.applyAux, Option.some.injEq] at h
      rw [← h]
      rfl
  | ctx, .elem k a cs, n', h => by
      rw [MCQFeedback.applyAux] at h
      cases h1 : MCQFeedback.applyAuxList (MCQFeedback.childCtx ctx k a) cs with
      | none => rw [h1] at h; cases h
      | some cs' =>
        rw [h1] at h
        replace h : (match MCQFeedback.replaceChildren (MCQFeedback.childCtx ctx k a) cs' with
          | some cs'' => some (Node.elem k a cs'')
          | none => none) = some n' := h
        cases h2 : MCQFeedback.replaceChildren (MCQFeedback.childCtx ctx k a) cs' with
        | none => rw [h2] at h; cases h
        | some cs'' =>
            rw [h2, Option.some.injEq] at h
            have hnf' : feedbackNFList (MCQFeedback.childCtx ctx k a).isSome cs' = true :=
              applyAuxList_NF _ cs cs' h1
            obtain ⟨hnf'', htr⟩ := replaceChildren_NF _ cs' cs'' h2 hnf'
            have hiso := childCtx_isSome ctx k a
            rw [← h, feedbackNF_elem, Bool.and_eq_true]
            constructor
            · cases hoc : (ctx.isSome || (k = Kind.mcqChoice : Bool)) with
              | false => rfl
              | true =>
                  rw [htr (hiso.trans hoc)]
                  rfl
            · rw [hiso] at hnf''
              exact hnf''

theorem applyAuxList_NF :
    ∀ (ctx : Option (Option Bool)) (cs cs' : List Node),
      MCQFeedback.applyAuxList ctx cs = some cs' → feedbackNFList ctx.isSome cs' = true
  | ctx, [], cs', h => by
      rw [MCQFeedback.applyAuxList, Option.some.injEq] at h
      rw [← h]
      rfl
  | ctx, c :: cs, cs', h => by
      rw [MCQFeedback.applyAuxList] at h
      cases h1 : MCQFeedback.applyAux ctx c with
      | none => rw [h1] at h; cases h
      | some c' =>
        cases h2 : MCQFeedback.applyAuxList ctx cs with
        | none => rw [h1, h2] at h; cases h
        | some rest =>
            rw [h1, h2, Option.some.injEq] at h
            rw [← h, feedbackNFList_cons, Bool.and_eq_true]
            exact ⟨applyAux_NF ctx c c' h1, applyAuxList_NF ctx cs rest h2⟩
end

/-- C4: running the two passes a second time on a tree the full pipeline
already normalized finds no matching upperalpha lists or feedback fields:
each pass returns the tree unchanged, and so does the whole pipeline. -/
theorem claim_C4 (doc doc' : Node) (h : pipeline doc = some doc') :
    MCQChoices.apply doc' = some doc' ∧ MCQFeedback.apply doc' = some doc' ∧
      pipeline doc' = some doc' := by
  rw [pipeline] at h
  cases h1 : MCQChoices.apply doc with
  | none => rw [h1] at h; cases h
  | some d1 =>
      rw [h1] at h
      have hnf1 : choicesNF d1 = true := apply_NF doc d1 h1
      have hnf1' : choicesNF doc' = true := applyAux_pres_cNF none d1 doc' h hnf1
      have hp1 : MCQChoices.apply doc' = some doc' := apply_id doc' hnf1'
      have hnf2 : feedbackNF false doc' = true := applyAux_NF none d1 doc' h
      have hp2 : MCQFeedback.apply doc' = some doc' := applyAux_id none doc' hnf2
      exact ⟨hp1, hp2, by rw [pipeline, hp1]; exact hp2⟩

set_option maxHeartbeats 4000000 in
theorem claim_C4_witness :
    pipeline egDoc = some egExpected ∧
    (MCQChoices.apply egExpected = some egExpected ∧
      MCQFeedback.apply egExpected = some egExpected ∧
      pipeline egExpected = some egExpected) :=
  ⟨by rfl, claim_C4 egDoc egExpected (by rfl)⟩

/-! ### The directive: counter and options -/

theorem initDirective_count (count : Nat) (s : SuppliedOptions) :
    (initDirective count s).2 = count + 1 := rfl

theorem initDirective_name_auto (count : Nat) (s : SuppliedOptions)
    (h : nameFalsy s.name = true) :
    (initDirective count s).1.name = "mcq-" ++ Nat.repr (count + 1) := by
  simp only [initDirective, if_pos h]

theorem runDirectives_count :
    ∀ (ds : List SuppliedOptions) (count : Nat),
      (runDirectives count ds).2 = count + ds.length := by
  intro ds
  induction ds with
  | nil => intro count; rfl
  | cons s rest ih =>
      intro count
      rw [runDirectives]
      show (runDirectives (initDirective count s).2 rest).2 = count + (s :: rest).length
      rw [initDirective_count, ih]
      simp
      omega

theorem runDirectives_names :
    ∀ (ds : List SuppliedOptions) (count : Nat),
      (∀ s ∈ ds, nameFalsy s.name = true) →
      (runDirectives count ds).1.map (fun o => o.name)
        = (List.range ds.length).map (fun i => "mcq-" ++ Nat.repr (count + i + 1)) := by
  intro ds
  induction ds with
  | nil => intro count _; rfl
  | cons s rest ih =>
      intro count hfal
      rw [runDirectives]
      show ((initDirective count s).1 :: (runDirectives (initDirective count s).2 rest).1).map
          (fun o => o.name) = _
      rw [List.map_cons, initDirective_name_auto count s (hfal s (List.mem_cons_self s rest)),
        initDirective_count,
        ih (count + 1) (fun x hx => hfal x (List.mem_cons_of_mem s hx))]
      rw [List.length_cons, List.range_succ_eq_map, List.map_cons, List.map_map]
      have harith : ∀ i : Nat, count + 1 + i + 1 = count + (i + 1) + 1 := by omega
      simp [Function.comp, harith]

/-- C5: a document of `K` `mcq` directives none of which supplies a usable
`name` gets the auto ids `mcq-1 .. mcq-K` in authoring order (starting
from a fresh build environment, counter `0`), and these ids are all
non-empty and pairwise distinct. -/
theorem claim_C5 (ds : List SuppliedOptions) (K : Nat) (hK : ds.length = K)
    (hfal : ∀ s ∈ ds, nameFalsy s.name = true) :
    (runDirectives 0 ds).1.map (fun o => o.name)
        = (List.range K).map (fun i => "mcq-" ++ Nat.repr (i + 1)) ∧
      ((runDirectives 0 ds).1.map (fun o => o.name)).Nodup ∧
      ∀ nm ∈ (runDirectives 0 ds).1.map (fun o => o.name), nm ≠ "" := by
  have hm := runDirectives_names ds 0 hfal
  rw [hK] at hm
  have hz : ∀ i : Nat, 0 + i + 1 = i + 1 := by omega
  simp only [hz] at hm
  refine ⟨hm, ?_, ?_⟩
  · rw [hm]
    refine List.Nodup.map ?_ (List.nodup_range K)
    intro a b hab
    have := mcqId_injective (a + 1) (b + 1) hab
    omega
  · rw [hm]
    intro nm hnm
    obtain ⟨i, _, rfl⟩ := List.mem_map.mp hnm
    exact mcqId_ne_empty (i + 1)

theorem claim_C5_witness :
    (∀ s ∈ [({} : SuppliedOptions), {}], nameFalsy s.name = true) ∧
    ((runDirectives 0 [({} : SuppliedOptions), {}]).1.map (fun o => o.name)
        = (List.range 2).map (fun i => "mcq-" ++ Nat.repr (i + 1)) ∧
      ((runDirectives 0 [({} : SuppliedOptions), {}]).1.map (fun o => o.name)).Nodup ∧
      ∀ nm ∈ (runDirectives 0 [({} : SuppliedOptions), {}]).1.map (fun o => o.name),
        nm ≠ "") :=
  ⟨by decide, claim_C5 [{}, {}] 2 rfl (by decide)⟩

/-- C6 (amended): nothing resets the counter at the start of a build; it
is initialized only when the environment attribute is absent or zero and
otherwise keeps counting.  A second build run against the same build
environment therefore continues the sequence: its first auto-named
Question receives id `mcq-(K1+1)`, where `K1` is the number of `mcq`
directives processed by the earlier builds, not `mcq-1`. -/
theorem claim_C6 (build1 : List SuppliedOptions) (d : SuppliedOptions)
    (rest : List SuppliedOptions) (hd : nameFalsy d.name = true) :
    ((runDirectives (runDirectives 0 build1).2 (d :: rest)).1.map
        (fun o => o.name)).head?
      = some ("mcq-" ++ Nat.repr (build1.length + 1)) := by
  have hc : (runDirectives 0 build1).2 = build1.length := by
    rw [runDirectives_count]
    omega
  rw [hc, runDirectives]
  show (((initDirective build1.length d).1 :: _).map (fun o => o.name)).head? = _
  rw [List.map_cons, List.head?_cons, initDirective_name_auto _ d hd]

theorem claim_C6_counterexample :
    ((runDirectives (runDirectives 0 [({} : SuppliedOptions)]).2
        [({} : SuppliedOptions)]).1.map (fun o => o.name)) = ["mcq-2"] ∧
      ("mcq-2" : String) ≠ "mcq-1" := by
  constructor
  · rfl
  · decide

theorem claim_C6_witness :
    nameFalsy ({} : SuppliedOptions).name = true ∧
    ((runDirectives (runDirectives 0 [({} : SuppliedOptions)]).2
        (({} : SuppliedOptions) :: [])).1.map (fun o => o.name)).head?
      = some ("mcq-" ++ Nat.repr ([({} : SuppliedOptions)].length + 1)) :=
  ⟨by decide, claim_C6 [{}] {} [] (by decide)⟩

/-- C7: each flag option is parsed to `true` exactly when the option key
was supplied, and the resulting `classes` attribute contains `"numbered"`
iff the `numbered` flag was supplied and `"show-feedback"` iff the
`show_feedback` flag was supplied — additively and by membership (both can
be present at once). -/
theorem claim_C7 (count : Nat) (s : SuppliedOptions) :
    ((initDirective count s).1.numbered = s.numbered ∧
      (initDirective count s).1.show_feedback = s.show_feedback) ∧
    ("numbered" ∈ (initDirective count s).1.classes ↔ s.numbered = true) ∧
    ("show-feedback" ∈ (initDirective count s).1.classes ↔ s.show_feedback = true) := by
  cases hn : s.numbered <;> cases hsf : s.show_feedback <;>
    simp [initDirective, hn, hsf]

/-! ### Claims about Pass 2's rewriting shape (C3, C8) and warnings (C9) -/

theorem feedbackNFList_append (b : Bool) :
    ∀ (xs ys : List Node),
      feedbackNFList b xs = true → feedbackNFList b ys = true →
      feedbackNFList b (xs ++ ys) = true
  | [], ys, _, hy => hy
  | x :: xs, ys, hx, hy => by
      rw [feedbackNFList_cons, Bool.and_eq_true] at hx
      rw [List.cons_append, feedbackNFList_cons, Bool.and_eq_true]
      exact ⟨hx.1, feedbackNFList_append b xs ys hx.2 hy⟩

theorem replaceChildren_ptwise (ctx : Option (Option Bool)) :
    ∀ cs, (∀ c ∈ cs, MCQFeedback.replaceOneChild ctx c = some c) →
      MCQFeedback.replaceChildren ctx cs = some cs
  | [], _ => by rw [MCQFeedback.replaceChildren]
  | c :: cs, h => by
      rw [MCQFeedback.replaceChildren, h c (List.mem_cons_self c cs),
        replaceChildren_ptwise ctx cs (fun x hx => h x (List.mem_cons_of_mem c hx))]

theorem replaceChildren_eq_cons (ctx : Option (Option Bool)) :
    ∀ (pre : List Node) (mid mid' : Node) (post : List Node),
      (∀ c ∈ pre, MCQFeedback.replaceOneChild ctx c = some c) →
      MCQFeedback.replaceOneChild ctx mid = some mid' →
      (∀ c ∈ post, MCQFeedback.replaceOneChild ctx c = some c) →
      MCQFeedback.replaceChildren ctx (pre ++ mid :: post) = some (pre ++ mid' :: post)
  | [], mid, mid', post, _, hmid, hpost => by
      rw [List.nil_append, List.nil_append, MCQFeedback.replaceChildren, hmid,
        replaceChildren_ptwise ctx post hpost]
  | p :: pre, mid, mid', post, hpre, hmid, hpost => by
      rw [List.cons_append, List.cons_append, MCQFeedback.replaceChildren,
        hpre p (List.mem_cons_self p _),
        replaceChildren_eq_cons ctx pre mid mid' post
          (fun x hx => hpre x (List.mem_cons_of_mem p hx)) hmid hpost]

/-- C3 (amended): Pass 2 replaces a Choice's feedback-carrying field-list
in place — the Feedback node lands at the position the field-list
occupied, not appended last — and synthesizes nothing for Choices without
feedback: a subtree containing no feedback field inside a choice is left
unchanged, so such Choices get no (empty) Feedback child.  For a Choice
holding exactly one feedback field-list among otherwise clean children,
the pass yields exactly one Feedback child, at that former position. -/
theorem claim_C3 (a : Attrs) (b : Bool) (la : Attrs) (pre post fcs : List Node) (f c' : Node)
    (hb : a.mcq_is_correct = some b)
    (hfil : fcs.filter is_feedback_field = [f])
    (hpre : feedbackNFList true pre = true) (hpreT : pre.any isFeedbackTrigger = false)
    (hpost : feedbackNFList true post = true) (hpostT : post.any isFeedbackTrigger = false)
    (hflNF : feedbackNF true (.elem Kind.fieldList la fcs) = true)
    (hbf : MCQFeedback.buildFeedback (some b) f = some c') :
    MCQFeedback.apply (.elem Kind.mcqChoice a (pre ++ (.elem Kind.fieldList la fcs) :: post))
      = some (.elem Kind.mcqChoice a (pre ++ c' :: post)) ∧
    isFeedbackNode c' = true ∧
    (pre ++ c' :: post).countP isFeedbackNode
      = pre.countP isFeedbackNode + post.countP isFeedbackNode + 1 ∧
    (∀ choice2, feedbackNF false choice2 = true →
      MCQFeedback.apply choice2 = some choice2) := by
  have hctx : MCQFeedback.childCtx none Kind.mcqChoice a = some (some b) := by
    rw [show MCQFeedback.childCtx none Kind.mcqChoice a = some a.mcq_is_correct from rfl, hb]
  have hcsNF : feedbackNFList true (pre ++ (Node.elem Kind.fieldList la fcs) :: post) = true := by
    apply feedbackNFList_append true pre _ hpre
    rw [feedbackNFList_cons, Bool.and_eq_true]
    exact ⟨hflNF, hpost⟩
  have hlist : MCQFeedback.applyAuxList (some (some b))
      (pre ++ (Node.elem Kind.fieldList la fcs) :: post)
      = some (pre ++ (Node.elem Kind.fieldList la fcs) :: post) :=
    applyAuxList_id (some (some b)) _ hcsNF
  have hone : MCQFeedback.replaceOneChild (some (some b)) (.elem Kind.fieldList la fcs)
      = some c' := by
    rw [replaceOneChild_trigger (some b) la fcs f hfil, hbf]
  have hrepl : MCQFeedback.replaceChildren (some (some b))
      (pre ++ (Node.elem Kind.fieldList la fcs) :: post)
      = some (pre ++ c' :: post) := by
    apply replaceChildren_eq_cons
    · intro c hc
      apply replaceOneChild_eq_self
      have := List.any_eq_false.mp hpreT c hc
      exact Bool.not_eq_true _ ▸ this
    · exact hone
    · intro c hc
      apply replaceOneChild_eq_self
      have := List.any_eq_false.mp hpostT c hc
      exact Bool.not_eq_true _ ▸ this
  have hisfb : isFeedbackNode c' = true := by
    obtain ⟨b2, content, _, rfl, _⟩ := buildFeedback_spec (some b) f c' hbf
    rfl
  refine ⟨?_, hisfb, ?_, fun choice2 h2 => applyAux_id none choice2 h2⟩
  · rw [MCQFeedback.apply, MCQFeedback.applyAux, hctx, hlist]
    show (match MCQFeedback.replaceChildren (some (some b))
        (pre ++ (Node.elem Kind.fieldList la fcs) :: post) with
      | some cs'' => some (Node.elem Kind.mcqChoice a cs'')
      | none => none) = some (Node.elem Kind.mcqChoice a (pre ++ c' :: post))
    rw [hrepl]
  · rw [List.countP_append, List.countP_cons, hisfb]
    simp
    omega

theorem claim_C3_counterexample :
    MCQFeedback.apply noFeedbackDoc = some noFeedbackDoc ∧
    (nodeChildren noFeedbackChoice).countP isFeedbackNode = 0 ∧
    (nodeChildren noFeedbackChoice).countP isFeedbackNode ≠ 1 := by
  refine ⟨by rfl, by rfl, by decide⟩

theorem claim_C3_witness :
    (MCQFeedback.buildFeedback (some true) egField
        = some (Node.elem Kind.mcqChoiceFeedback { is_correct := some true }
            [Node.elem Kind.paragraph {} [.text "Correct!"]])) ∧
    (MCQFeedback.apply (Node.elem Kind.mcqChoice
          { mcq_is_correct := some true }
          ([Node.elem Kind.paragraph {} [.text "4"]] ++ (Node.elem Kind.fieldList {} [egField])
            :: []))
        = some (Node.elem Kind.mcqChoice { mcq_is_correct := some true }
            ([Node.elem Kind.paragraph {} [.text "4"]]
              ++ (Node.elem Kind.mcqChoiceFeedback { is_correct := some true }
                  [Node.elem Kind.paragraph {} [.text "Correct!"]]) :: [])) ∧
      isFeedbackNode (Node.elem Kind.mcqChoiceFeedback { is_correct := some true }
          [Node.elem Kind.paragraph {} [.text "Correct!"]]) = true ∧
      ([Node.elem Kind.paragraph {} [.text "4"]]
          ++ (Node.elem Kind.mcqChoiceFeedback { is_correct := some true }
              [Node.elem Kind.paragraph {} [.text "Correct!"]]) :: []).countP isFeedbackNode
        = ([(Node.elem Kind.paragraph {} [.text "4"] : Node)]).countP isFeedbackNode
            + ([] : List Node).countP isFeedbackNode + 1 ∧
      (∀ choice2, feedbackNF false choice2 = true →
        MCQFeedback.apply choice2 = some choice2)) :=
  ⟨by rfl,
   claim_C3 { mcq_is_correct := some true } true {}
     [Node.elem Kind.paragraph {} [.text "4"]] [] [egField] egField
     (Node.elem Kind.mcqChoiceFeedback { is_correct := some true }
       [Node.elem Kind.paragraph {} [.text "Correct!"]])
     rfl (by rfl) (by rfl) (by rfl) rfl rfl (by rfl) (by rfl)⟩

/-- C8: inside a Choice, a field-list whose (unique) feedback field has
label exactly "feedback" after stripping and lowercasing is replaced at
its own child position by a Feedback node wrapping the field body's
content: the body's children as-is in general, or — when the body is a
single paragraph — that paragraph's own children, avoiding double
wrapping.  The field and its containing field-list are gone from the
resulting child (the replacement node contains only the extracted
content). -/
theorem claim_C8 (ic : Bool) (la fa : Attrs) (fcs : List Node) (fk : Kind)
    (fn fb : Node) (bk : Kind) (ba : Attrs) (fbcs : List Node)
    (hfil : fcs.filter is_feedback_field = [Node.elem fk fa [fn, fb]])
    (hfn : is_feedback_name fn = true)
    (hfb : fb = Node.elem bk ba fbcs) :
    (isSingleParagraph fbcs = false →
      MCQFeedback.replaceOneChild (some (some ic)) (Node.elem Kind.fieldList la fcs)
        = some (Node.elem Kind.mcqChoiceFeedback { is_correct := some ic }
            [Node.elem Kind.paragraph {} fbcs])) ∧
    (∀ pk pa pcs rest, fbcs = Node.elem pk pa pcs :: rest → isSingleParagraph fbcs = true →
      MCQFeedback.replaceOneChild (some (some ic)) (Node.elem Kind.fieldList la fcs)
        = some (Node.elem Kind.mcqChoiceFeedback { is_correct := some ic }
            [Node.elem Kind.paragraph {} pcs])) := by
  constructor
  · intro hsp
    rw [replaceOneChild_trigger (some ic) la fcs _ hfil,
      MCQFeedback.buildFeedback, MCQFeedback.feedbackContent, if_pos hfn, hfb,
      extractFieldBody_elem, if_neg (by rw [hsp]; exact Bool.noConfusion),
      Option.some_bind, Option.some_bind]
  · intro pk pa pcs rest hshape hsp
    rw [replaceOneChild_trigger (some ic) la fcs _ hfil,
      MCQFeedback.buildFeedback, MCQFeedback.feedbackContent, if_pos hfn, hfb,
      extractFieldBody_elem, if_pos hsp, hshape]
    rw [show (match (Node.elem pk pa pcs :: rest : List Node) with
        | [] => (none : Option (List Node))
        | c0 :: _ => MCQFeedback.paragraphChildren c0)
      = MCQFeedback.paragraphChildren (Node.elem pk pa pcs) from rfl]
    rw [MCQFeedback.paragraphChildren, Option.some_bind, Option.some_bind]

theorem claim_C8_witness :
    ([egField].filter is_feedback_field
        = [Node.elem Kind.field {} [Node.elem Kind.fieldName {} [.text "feedback"],
            Node.elem Kind.fieldBody {} [Node.elem Kind.paragraph {} [.text "Correct!"]]]]) ∧
    is_feedback_name (Node.elem Kind.fieldName {} [.text "feedback"]) = true ∧
    (∀ pk pa pcs rest,
        ([Node.elem Kind.paragraph {} [.text "Correct!"]] : List Node)
          = Node.elem pk pa pcs :: rest →
        isSingleParagraph [Node.elem Kind.paragraph {} [.text "Correct!"]] = true →
        MCQFeedback.replaceOneChild (some (some true)) (Node.elem Kind.fieldList {} [egField])
          = some (Node.elem Kind.mcqChoiceFeedback { is_correct := some true }
              [Node.elem Kind.paragraph {} pcs])) :=
  ⟨by rfl, by rfl,
   (claim_C8 true {} {} [egField] Kind.field
     (Node.elem Kind.fieldName {} [.text "feedback"])
     (Node.elem Kind.fieldBody {} [Node.elem Kind.paragraph {} [.text "Correct!"]])
     Kind.fieldBody {} [Node.elem Kind.paragraph {} [.text "Correct!"]]
     (by rfl) (by rfl) rfl).2⟩

/-- C9 (amended): a Question containing no alphabetic enumerated list
makes Pass 1 a no-op: no error is raised (the pass succeeds), the Question
still ends Pass 1 without a Choices List, and no build-time warning is
emitted by the pass — the transform contains no logger call; the only
warning text in the code base sits in the unreachable
`create_choices_list` helper (`createChoicesListWarning`). -/
theorem claim_C9 (doc : Node) (hnf : choicesNF doc = true) :
    MCQChoices.apply doc = some doc ∧
      MCQChoices.emittedWarnings doc = [] ∧
      (anyNode isChoicesListNode doc = false →
        ∃ doc', MCQChoices.apply doc = some doc' ∧
          anyNode isChoicesListNode doc' = false) := by
  refine ⟨apply_id doc hnf, rfl, fun hno => ⟨doc, apply_id doc hnf, hno⟩⟩

theorem claim_C9_counterexample :
    MCQChoices.apply noListDoc = some noListDoc ∧
    anyNode isChoicesListNode noListDoc = false ∧
    MCQChoices.emittedWarnings noListDoc = [] := by
  exact ⟨by rfl, by rfl, rfl⟩

theorem claim_C9_witness :
    choicesNF noListDoc = true ∧
    (MCQChoices.apply noListDoc = some noListDoc ∧
      MCQChoices.emittedWarnings noListDoc = [] ∧
      (anyNode isChoicesListNode noListDoc = false →
        ∃ doc', MCQChoices.apply noListDoc = some doc' ∧
          anyNode isChoicesListNode doc' = false)) :=
  ⟨by decide, claim_C9 noListDoc (by decide)⟩

end SphinxMCQ
